import Mathlib

/-!
# eglot-lspx: a multiplexing LSP proxy

A shallow embedding of the routing, fan-out and merge code of the proxy
(`proxy.go`), of the per-backend handlers and the diagnostic cache
(`process.go`) and of the reflective deep merge (`lspx/util.go`), followed by
theorems about them.

Conventions of the embedding:

* a Go slice is a `List` (a nil slice and an empty slice are both `[]`);
* a Go `map[K]V` is a key/value list with pairwise distinct keys; iterating a
  Go map visits the entries in an unspecified order, so every function that
  ranges over a map comes with a relation describing all orders;
* `*json.RawMessage` and decoded `interface{}` values are `Json` values;
* a function returning `(T, error)` returns `Except String T`; a run-time
  panic (index out of range, reflection on the zero `reflect.Value`) is the
  `none` of an enclosing `Option`;
* the bytes handed to a backend connection are made observable: `Call`
  returns the message it writes next to the backend's reply.
-/

namespace Lspx

/-! ## JSON values -/

/-- JSON values, as carried by `json.RawMessage` and by decoded `interface{}`. -/
inductive Json where
  | null
  | bool (b : Bool)
  | num (n : Int)
  | str (s : String)
  | arr (xs : List Json)
  | obj (kvs : List (String × Json))

/-- Member lookup in a JSON object as Go decoding resolves it: when a key is
repeated the last occurrence wins. -/
def Json.member (kvs : List (String × Json)) (k : String) : Option Json :=
  kvs.reverse.lookup k

/-! ## Requests, backends and the wire -/

/-- The fields of `jsonrpc2.Request` that the proxy reads. -/
structure Request where
  Method : String
  Params : Json
  Notif : Bool

/-- A request written to a backend connection by `conn.Call`. -/
structure Outgoing where
  method : String
  params : Json

/-- From `ProcessServer`: the display name and the connection to the child.  The child
is a function from the request it is sent to the raw reply (or error) it
gives back. -/
structure ProcessServer where
  name : String
  conn : Outgoing → Except String Json

/-- From `ProcessServer.Name`. -/
def ProcessServer.Name (s : ProcessServer) : String := s.name

/-- From `ProcessServer.Call`: forwards method and params to the connection.  The first
component is the message written to the child, the second the decoded reply
(`decode` stands for the unmarshalling into the caller's result type). -/
def ProcessServer.Call {τ : Type} (s : ProcessServer) (decode : Json → Except String τ)
    (method : String) (params : Json) : Outgoing × Except String τ :=
  let msg : Outgoing := { method := method, params := params }
  (msg, s.conn msg >>= decode)

/-- From `ProxyServer`: the backends in launch order and the provider table. -/
structure ProxyServer where
  procs : List ProcessServer
  providers : String → Option (List String)

/-- The join of the error group in `handleProcs`: every call has finished; the
results are returned position by position unless some call failed, in which
case an error is returned (here that of the first failing position). -/
def waitAll {τ : Type} : List (Except String τ) → Except String (List τ)
  | [] => .ok []
  | .error err :: _ => .error err
  | .ok result :: rest =>
    match waitAll rest with
    | .error err => .error err
    | .ok results => .ok (result :: results)

/-- From `handleProcs`: calls every backend of `procs` and stores each result at the
backend's position.  The first component lists, in the order of `procs`, the
message each backend was sent; the second is the result list or an error. -/
def handleProcs {τ : Type} (decode : Json → Except String τ) (req : Request)
    (procs : List ProcessServer) : List Outgoing × Except String (List τ) :=
  let calls := procs.map (fun newProc => newProc.Call decode req.Method req.Params)
  (calls.map Prod.fst, waitAll (calls.map Prod.snd))

/-! ## Routing -/

/-- The table `providerMap` of `getProcsByProviders`: LSP method to capability key. -/
def providerMap (method : String) : Option String :=
  if method = "textDocument/hover" then some "hover"
  else if method = "textDocument/completion" then some "completion"
  else if method = "textDocument/definition" then some "definition"
  else if method = "textDocument/rename" then some "rename"
  else if method = "textDocument/references" then some "references"
  else if method = "textDocument/publishDiagnostics" then some "diagnostic"
  else none

/-- The loop of `getProcsByProviders`: walks the backends with their index `i`
(starting at `i`) and keeps those whose index in decimal or whose name is among
the providers. -/
def selectProcs (providers : List String) : Nat → List ProcessServer → List ProcessServer
  | _, [] => []
  | i, proc :: rest =>
    if providers.contains (toString i) || providers.contains proc.Name then
      proc :: selectProcs providers (i + 1) rest
    else
      selectProcs providers (i + 1) rest

/-- From `ProxyServer.getProcsByProviders`. -/
def ProxyServer.getProcsByProviders (s : ProxyServer) (method : String) : List ProcessServer :=
  match providerMap method with
  | none => s.procs
  | some m =>
    match s.providers m with
    | none => s.procs
    | some providers =>
      if providers.length = 0 then s.procs
      else
        let procs := selectProcs providers 0 s.procs
        if procs.length = 0 then s.procs else procs

/-! ## Completion merge -/

/-- The fields of `protocol.CompletionList`; `ι` is the type of completion items. -/
structure CompletionList (ι : Type) where
  IsIncomplete : Bool
  Items : List ι

/-- One iteration of the loop of `handleTextDocumentCompletion`. -/
def completionStep {ι : Type} (completion result : CompletionList ι) : CompletionList ι :=
  if result.IsIncomplete then
    { completion with IsIncomplete := true }
  else
    { completion with Items := completion.Items ++ result.Items }

/-- From `ProxyServer.handleTextDocumentCompletion`. -/
def ProxyServer.handleTextDocumentCompletion {ι : Type} (_s : ProxyServer)
    (decode : Json → Except String (CompletionList ι)) (req : Request)
    (procs : List ProcessServer) : List Outgoing × Except String (CompletionList ι) :=
  match handleProcs decode req procs with
  | (sent, .error err) => (sent, .error err)
  | (sent, .ok results) =>
    (sent, .ok (results.foldl completionStep { IsIncomplete := false, Items := [] }))

/-! ## Dynamic Go values and the reflective merge -/

/-- Go values as `reflect` sees them.  `nil` is the nil interface value; `ptr none`
is a typed nil pointer; a struct carries its type name and its fields in
declaration order. -/
inductive GoVal where
  | nil
  | ptr (target : Option GoVal)
  | map (entries : List (String × GoVal))
  | slice (elems : List GoVal)
  | struct (typeName : String) (fields : List (String × GoVal))
  | bool (b : Bool)
  | int (n : Int)
  | str (s : String)

mutual
/-- Equality by value of two Go values. -/
def GoVal.eqv : GoVal → GoVal → Bool
  | .nil, .nil => true
  | .ptr none, .ptr none => true
  | .ptr (some a), .ptr (some b) => GoVal.eqv a b
  | .map a, .map b => GoVal.eqvEntries a b
  | .slice a, .slice b => GoVal.eqvList a b
  | .struct s a, .struct t b => s == t && GoVal.eqvEntries a b
  | .bool a, .bool b => a == b
  | .int a, .int b => a == b
  | .str a, .str b => a == b
  | _, _ => false
/-- Equality by value, element by element. -/
def GoVal.eqvList : List GoVal → List GoVal → Bool
  | [], [] => true
  | a :: as, b :: bs => GoVal.eqv a b && GoVal.eqvList as bs
  | _, _ => false
/-- Equality by value, entry by entry. -/
def GoVal.eqvEntries : List (String × GoVal) → List (String × GoVal) → Bool
  | [], [] => true
  | (k, a) :: as, (l, b) :: bs => k == l && GoVal.eqv a b && GoVal.eqvEntries as bs
  | _, _ => false
end

mutual
/-- Nesting depth of a Go value. -/
def GoVal.depth : GoVal → Nat
  | .ptr (some a) => GoVal.depth a + 1
  | .map a => GoVal.depthEntries a + 1
  | .slice a => GoVal.depthList a + 1
  | .struct _ a => GoVal.depthEntries a + 1
  | _ => 0
/-- Largest depth among the elements. -/
def GoVal.depthList : List GoVal → Nat
  | [] => 0
  | a :: as => max (GoVal.depth a) (GoVal.depthList as)
/-- Largest depth among the entries. -/
def GoVal.depthEntries : List (String × GoVal) → Nat
  | [] => 0
  | (_, a) :: as => max (GoVal.depth a) (GoVal.depthEntries as)
end

/-- The test `x == nil` on an interface value. -/
def GoVal.isNil : GoVal → Bool
  | .nil => true
  | _ => false

/-- The test `reflect.ValueOf(x).Kind() == reflect.Pointer`: struct fields reached
through a pointer are addressable, hence settable. -/
def GoVal.isPtr : GoVal → Bool
  | .ptr _ => true
  | _ => false

/-- The loop `for v.Kind() == reflect.Pointer { v = v.Elem() }` applied to
`reflect.ValueOf(x)`: `none` is the zero `reflect.Value` (the one for which
`IsValid()` is false), reached through a nil pointer. -/
def deref : GoVal → Option GoVal
  | .nil => none
  | .ptr none => none
  | .ptr (some (.ptr t)) => deref (.ptr t)
  | .ptr (some v) => some v
  | v => some v

/-- The value `o` after the value its pointers lead to was updated in place to `v`. -/
def GoVal.withTarget : GoVal → GoVal → GoVal
  | .ptr (some (.ptr t)), v => .ptr (some (GoVal.withTarget (.ptr t) v))
  | .ptr (some _), v => .ptr (some v)
  | o, _ => o

/-- From `reflect.StructField.IsExported`: the field name starts with an upper-case letter. -/
def isExported (name : String) : Bool := (name.get 0).isUpper

/-- First loop of the `reflect.Map` arm of `merge`: every key of `old` that `new`
also has is set to the merge of the two values (`SetMapIndex` with the zero
`reflect.Value`, which is what `reflect.ValueOf(nil)` is, deletes the key). -/
def mergeMapKeys (rec : GoVal → GoVal → Option GoVal) (new : List (String × GoVal)) :
    List (String × GoVal) → Option (List (String × GoVal))
  | [] => some []
  | (k, oldFieldValue) :: rest =>
    match new.lookup k with
    | none => (mergeMapKeys rec new rest).map (fun m => (k, oldFieldValue) :: m)
    | some newFieldValue =>
      match rec oldFieldValue newFieldValue with
      | none => none
      | some .nil => mergeMapKeys rec new rest
      | some v => (mergeMapKeys rec new rest).map (fun m => (k, v) :: m)

/-- The loop of the `reflect.Struct` arm of `merge` over the fields of `old`:
an exported field that `new` has as an exported field too is, when settable,
set to the merge of the two values (`Set` with the zero `reflect.Value`
panics). -/
def mergeFields (rec : GoVal → GoVal → Option GoVal) (canSet : Bool)
    (newFields : List (String × GoVal)) :
    List (String × GoVal) → Option (List (String × GoVal))
  | [] => some []
  | (name, oldFieldValue) :: rest =>
    if !isExported name then
      (mergeFields rec canSet newFields rest).map (fun fs => (name, oldFieldValue) :: fs)
    else
      match newFields.lookup name with
      | none => (mergeFields rec canSet newFields rest).map (fun fs => (name, oldFieldValue) :: fs)
      | some newFieldValue =>
        if canSet then
          match rec oldFieldValue newFieldValue with
          | none => none
          | some .nil => none
          | some v => (mergeFields rec canSet newFields rest).map (fun fs => (name, v) :: fs)
        else
          (mergeFields rec canSet newFields rest).map (fun fs => (name, oldFieldValue) :: fs)

/-- The body of `merge`, with `rec` for its recursive calls.  `none` is a panic.
The statements are those of the source, in its order: the two nil tests, the
pointer loop and validity test on `o`, the pointer loop and validity test on
`n`, `newVal.Type()` (which panics on the zero `reflect.Value`), and the
switch on the kind of `newVal` with its map, slice and struct arms, in
which an operand `oldVal` of another kind makes the reflection calls panic
and `slices.Contains` compares the elements by value. -/
def mergeStep (rec : GoVal → GoVal → Option GoVal) (o n : GoVal) : Option GoVal :=
  if n.isNil then some o
  else if o.isNil then some n
  else
    let oldVal := deref o
    if oldVal.isSome then some n
    else
      let newVal := deref n
      if newVal.isSome then some o
      else
        match newVal, oldVal with
        | none, _ => none
        | some (.map new), some (.map old) =>
          match mergeMapKeys rec new old with
          | none => none
          | some old1 =>
            some (.map (old1 ++ new.filter (fun e => (old1.lookup e.1).isNone)))
        | some (.map _), _ => none
        | some (.slice new), some (.slice old) =>
          some (.slice (old ++ new.filter (fun x => !old.any (fun y => GoVal.eqv y x))))
        | some (.slice _), _ => none
        | some (.struct _ newFields), some (.struct t oldFields) =>
          match mergeFields rec o.isPtr
              (newFields.filter (fun f => isExported f.1)) oldFields with
          | none => none
          | some fs => some (GoVal.withTarget o (.struct t fs))
        | some (.struct _ _), _ => none
        | some _, _ => some o

/-- The function `merge` unrolled `fuel` levels deep. -/
def mergeFuel : Nat → GoVal → GoVal → Option GoVal
  | 0 => mergeStep (fun _ _ => none)
  | fuel + 1 => mergeStep (mergeFuel fuel)

/-- From `merge` (`lspx/util.go`).  Every recursive call is on a value nested in `o`, so
the depth of `o` bounds the recursion. -/
def merge (o n : GoVal) : Option GoVal := mergeFuel (o.depth + 1) o n

/-! ## Initialize fan-out -/

/-- The fields of `protocol.InitializeResult`: `Capabilities` holds the fields of the
`protocol.ServerCapabilities` struct. -/
structure InitializeResult where
  ServerInfo : Json
  Capabilities : List (String × GoVal)

/-- One iteration of the loop of `ProxyServer.handleInitialize`: merges pointers to the two
capability structs and, when the outcome is a `*protocol.ServerCapabilities`,
stores what it points to.  `none` is a panic. -/
def initializeStep (inititalize result : InitializeResult) : Option InitializeResult :=
  match merge (.ptr (some (.struct "ServerCapabilities" inititalize.Capabilities)))
      (.ptr (some (.struct "ServerCapabilities" result.Capabilities))) with
  | none => none
  | some (.ptr (some (.struct "ServerCapabilities" c))) =>
    some { inititalize with Capabilities := c }
  | some _ => some inititalize

/-- The loop of `ProxyServer.handleInitialize` over `results[1:]`. -/
def initializeLoop (inititalize : InitializeResult) :
    List InitializeResult → Option InitializeResult
  | [] => some inititalize
  | result :: rest =>
    match initializeStep inititalize result with
    | none => none
    | some next => initializeLoop next rest

/-- From `ProxyServer.handleInitialize`.  `none` in the second component is a panic
(`results[0]` out of range, or a panic of `merge`). -/
def ProxyServer.handleInitialize (_s : ProxyServer)
    (decode : Json → Except String InitializeResult) (req : Request)
    (procs : List ProcessServer) : List Outgoing × Option (Except String InitializeResult) :=
  match handleProcs decode req procs with
  | (sent, .error err) => (sent, some (.error err))
  | (sent, .ok []) => (sent, none)
  | (sent, .ok (first :: rest)) =>
    (sent, (initializeLoop { ServerInfo := first.ServerInfo,
                             Capabilities := first.Capabilities } rest).map .ok)

/-- The dynamic values `ProxyServer.handle` returns. -/
inductive Reply (ι : Type) where
  | initializeResult (r : InitializeResult)
  | completion (c : CompletionList ι)
  | raw (j : Json)

/-- From `ProxyServer.handle`.  `none` in the second component is a panic. -/
def ProxyServer.handle {ι : Type} (s : ProxyServer)
    (decodeInit : Json → Except String InitializeResult)
    (decodeCompletion : Json → Except String (CompletionList ι))
    (req : Request) (procs : List ProcessServer) :
    List Outgoing × Option (Except String (Reply ι)) :=
  if req.Method = "initialize" then
    match s.handleInitialize decodeInit req s.procs with
    | (sent, r) => (sent, r.map (fun e => e.map Reply.initializeResult))
  else if req.Method = "textDocument/completion" then
    match s.handleTextDocumentCompletion decodeCompletion req procs with
    | (sent, e) => (sent, some (e.map Reply.completion))
  else
    match handleProcs (fun j => .ok j) req procs with
    | (sent, .error err) => (sent, some (.error err))
    | (sent, .ok []) => (sent, none)
    | (sent, .ok (first :: _)) => (sent, some (.ok (Reply.raw first)))

/-! ## Diagnostic cache -/

/-- The fields of `protocol.Diagnostic` (the range as start line, start character, end
line, end character). -/
structure Diagnostic where
  Range : Nat × Nat × Nat × Nat
  Severity : Nat
  Code : String
  Source : String
  Message : String
  deriving DecidableEq

/-- The assignment `m[k] = v` on a Go map. -/
def GoMap.set {ν : Type} : List (String × ν) → String → ν → List (String × ν)
  | [], k, v => [(k, v)]
  | (k', v') :: m, k, v => if k' = k then (k, v) :: m else (k', v') :: GoMap.set m k v

/-- The read `m[k]` on a Go map whose values are maps: an absent key reads as the nil
(empty) map. -/
def GoMap.inner {ν : Type} (m : List (String × List (String × ν))) (k : String) :
    List (String × ν) :=
  (m.lookup k).getD []

/-- From `DiagnosticCache`: document URI to source to diagnostics. -/
structure DiagnosticCache where
  cache : List (String × List (String × List Diagnostic))

/-- From `NewDiagnosticCache`. -/
def NewDiagnosticCache : DiagnosticCache := { cache := [] }

/-- From `DiagnosticCache.Set`. -/
def DiagnosticCache.Set (c : DiagnosticCache) (uri source : String)
    (diagnostics : List Diagnostic) : DiagnosticCache :=
  let cache1 := if (c.cache.lookup uri).isNone then GoMap.set c.cache uri [] else c.cache
  { cache := GoMap.set cache1 uri (GoMap.set (GoMap.inner cache1 uri) source diagnostics) }

/-- From `DiagnosticCache.Get`, visiting the sources in the order they are stored in, which
is one of the orders the `range` over the Go map may take. -/
def DiagnosticCache.Get (c : DiagnosticCache) (uri : String) : List Diagnostic :=
  ((GoMap.inner c.cache uri).map Prod.snd).flatten

/-- All results `DiagnosticCache.Get` may return: the `range` over the Go map visits the
sources in some order `visit`. -/
def DiagnosticCache.GetOutcome (c : DiagnosticCache) (uri : String)
    (results : List Diagnostic) : Prop :=
  ∃ visit : List (String × List Diagnostic),
    visit.Perm (GoMap.inner c.cache uri) ∧ results = (visit.map Prod.snd).flatten

/-- A call `Set(uri, source, diagnostics)`. -/
structure Write where
  uri : String
  source : String
  diagnostics : List Diagnostic

/-- A sequence of `Set` calls, applied in order. -/
def DiagnosticCache.SetAll (c : DiagnosticCache) (log : List Write) : DiagnosticCache :=
  log.foldl (fun c w => c.Set w.uri w.source w.diagnostics) c

/-! ## Publishing diagnostics -/

/-- The fields of `protocol.PublishDiagnosticsParams` the handler uses. -/
structure PublishDiagnosticsParams where
  URI : String
  Diagnostics : List Diagnostic

/-- The loop of `handleTextDocumentPublishDiagnostics`: a diagnostic with an empty source
gets `source`. -/
def setSources (source : String) (diagnostics : List Diagnostic) : List Diagnostic :=
  diagnostics.map (fun d => if d.Source = "" then { d with Source := source } else d)

/-- From `ProcessServer.handleTextDocumentPublishDiagnostics`, on the params once unmarshalled
(params that do not unmarshal end the handler with the error, before the
cache is touched).  Returns the shared cache after the call and the params
of the notification to emit, with `Get` visiting the sources in stored
order. -/
def ProcessServer.handleTextDocumentPublishDiagnostics (s : ProcessServer)
    (diags : DiagnosticCache) (params : PublishDiagnosticsParams) :
    DiagnosticCache × PublishDiagnosticsParams :=
  let source := s.Name
  let diagnostics := setSources source params.Diagnostics
  let diags1 := diags.Set params.URI source diagnostics
  (diags1, { URI := params.URI, Diagnostics := diags1.Get params.URI })

/-- All params `handleTextDocumentPublishDiagnostics` may return, over the orders in which
`Get` may visit the sources. -/
def ProcessServer.PublishOutcome (s : ProcessServer) (diags : DiagnosticCache)
    (params out : PublishDiagnosticsParams) : Prop :=
  out.URI = params.URI ∧
    (diags.Set params.URI s.Name (setSources s.Name params.Diagnostics)).GetOutcome
      params.URI out.Diagnostics

/-- A `textDocument/publishDiagnostics` notification arriving from the backend at
position `backend` of the backend list. -/
structure Published where
  backend : Nat
  params : PublishDiagnosticsParams

/-- The shared cache after the backends handled the notifications `events` in order
(an event naming no backend is skipped). -/
def publishAll (procs : List ProcessServer) :
    DiagnosticCache → List Published → DiagnosticCache
  | diags, [] => diags
  | diags, ev :: rest =>
    match procs[ev.backend]? with
    | none => publishAll procs diags rest
    | some s =>
      publishAll procs (s.handleTextDocumentPublishDiagnostics diags ev.params).1 rest

/-! ## Rewriting `initialize` params -/

/-- The fields of `protocol.InitializeParams`: `InitializationOptions` is an `interface{}`
(`Json.null` is its nil), the other fields are kept as decoded. -/
structure InitializeParams where
  InitializationOptions : Json
  others : List (String × Json)

/-- The test `x != nil` on a decoded `interface{}`. -/
def Json.isNull : Json → Bool
  | .null => true
  | _ => false

/-- Library model of `sonic.Unmarshal` into a `protocol.InitializeParams`.  The decoding of
the typed fields (`processId`, `rootUri`, `capabilities`, ...) belongs to the
library and to type declarations outside this repository and is the
parameter `typed`: it is given the members other than
`initializationOptions` and fails on a type mismatch in one of them.
`initializationOptions` is an `interface{}` and takes any JSON value.  JSON
`null` leaves the zero value; a JSON value that is neither an object nor
`null` is a type mismatch. -/
def unmarshalInitializeParams
    (typed : List (String × Json) → Except String (List (String × Json))) :
    Json → Except String InitializeParams
  | .obj kvs =>
    match typed (kvs.filter (fun e => e.1 != "initializationOptions")) with
    | .error err => .error err
    | .ok others =>
      .ok { InitializationOptions := (Json.member kvs "initializationOptions").getD .null,
            others := others }
  | .null => .ok { InitializationOptions := .null, others := [] }
  | _ => .error "cannot unmarshal into Go value of type protocol.InitializeParams"

/-- Library model of `sonic.Marshal` of a decoded `interface{}` followed by
`sonic.Unmarshal` into a `map[string]any`: a JSON object gives its members,
`null` the empty map, any other JSON value is a type mismatch.  Numbers are
kept exact (the rounding of a decoded `float64` is not modelled). -/
def unmarshalOptions : Json → Except String (List (String × Json))
  | .obj kvs => .ok kvs
  | .null => .ok []
  | _ => .error "cannot unmarshal into Go value of type map[string]interface {}"

/-- The dynamic values `ProcessServer.handleInitialize` returns: the raw request params, or
the decoded and rewritten params. -/
inductive Rewritten where
  | raw (params : Json)
  | typed (params : InitializeParams)

/-- From `ProcessServer.handleInitialize`; `typed` is the decoding of the typed fields of
`protocol.InitializeParams`. -/
def ProcessServer.handleInitialize (s : ProcessServer)
    (typed : List (String × Json) → Except String (List (String × Json)))
    (req : Request) : Except String Rewritten :=
  match unmarshalInitializeParams typed req.Params with
  | .error err => .error err
  | .ok newParams =>
    if !newParams.InitializationOptions.isNull then
      match unmarshalOptions newParams.InitializationOptions with
      | .error err => .error err
      | .ok options =>
        match Json.member options s.name with
        | some opt => .ok (.typed { newParams with InitializationOptions := opt })
        | none => .ok (.typed newParams)
    else
      .ok (.raw req.Params)

/-! ## Specification-side definitions -/

/-- The backends of `procs` whose position written in decimal, or whose name, is one of
the selectors `ps`; in the order of `procs`. -/
def matchingProcs (ps : List String) (procs : List ProcessServer) : List ProcessServer :=
  (procs.enum.filter (fun ip => decide (toString ip.1 ∈ ps ∨ ip.2.name ∈ ps))).map Prod.snd

/-- The six methods that have a capability key. -/
def mappedMethods : List (String × String) :=
  [("textDocument/hover", "hover"), ("textDocument/completion", "completion"),
   ("textDocument/definition", "definition"), ("textDocument/rename", "rename"),
   ("textDocument/references", "references"),
   ("textDocument/publishDiagnostics", "diagnostic")]

/-- The list most recently written with `Set(uri, source, .)` in `log`, if any. -/
def lastWritten (log : List Write) (uri source : String) : Option (List Diagnostic) :=
  (log.reverse.find? (fun w => decide (w.uri = uri ∧ w.source = source))).map
    (fun w => w.diagnostics)

/-- The sources under which `log` writes for `uri`, in order, with repetitions. -/
def sourcesWritten (log : List Write) (uri : String) : List String :=
  (log.filter (fun w => decide (w.uri = uri))).map (fun w => w.source)

/-- What the spec says `Get(uri)` holds right after `log` followed by
`Set(uri, source, diagnostics)`: `diagnostics`, and for every other source
written for `uri` the list most recently written under it. -/
def expectedAfterSet (log : List Write) (uri source : String)
    (diagnostics : List Diagnostic) : List Diagnostic :=
  diagnostics ++
    (((sourcesWritten log uri).dedup.filter (fun s' => decide (s' ≠ source))).flatMap
      (fun s' => (lastWritten log uri s').getD []))

/-- The `Set` calls the handlers make for the notifications `events`. -/
def writesOf (procs : List ProcessServer) (events : List Published) : List Write :=
  events.filterMap (fun ev =>
    (procs[ev.backend]?).map (fun s =>
      { uri := ev.params.URI, source := s.Name,
        diagnostics := setSources s.Name ev.params.Diagnostics }))

/-- What the notification `ev` publishes for `uri` under `name`: its diagnostics with empty
sources set to `name`, when it is for `uri` and comes from a backend called
`name`. -/
def publishedUnder (procs : List ProcessServer) (uri name : String) (ev : Published) :
    Option (List Diagnostic) :=
  match procs[ev.backend]? with
  | some s =>
    if ev.params.URI = uri ∧ s.name = name then
      some (setSources s.name ev.params.Diagnostics)
    else none
  | none => none

/-- The list most recently published for `uri` by a backend called `name`. -/
def lastPublishedUnder (procs : List ProcessServer) (events : List Published)
    (uri name : String) : Option (List Diagnostic) :=
  events.reverse.findSome? (publishedUnder procs uri name)

/-- The union, over the names of the backends, of the list most recently published for
`uri` under that name. -/
def expectedPublished (procs : List ProcessServer) (events : List Published)
    (uri : String) : List Diagnostic :=
  ((procs.map (fun s => s.name)).dedup).flatMap
    (fun name => (lastPublishedUnder procs events uri name).getD [])

/-- The list most recently published for `uri` by the backend at position `i`, with
empty sources set to that backend's name. -/
def lastPublishedBy (procs : List ProcessServer) (events : List Published)
    (uri : String) (i : Nat) : Option (List Diagnostic) :=
  events.reverse.findSome? (fun ev =>
    if ev.backend = i ∧ ev.params.URI = uri then
      (procs[i]?).map (fun s => setSources s.name ev.params.Diagnostics)
    else none)

/-- The union, over all backends, of each backend's most recently published list for
`uri`. -/
def unionOverBackends (procs : List ProcessServer) (events : List Published)
    (uri : String) : List Diagnostic :=
  (List.range procs.length).flatMap
    (fun i => (lastPublishedBy procs events uri i).getD [])

/-! ## Example data -/

/-- Library model of unmarshalling a reply into a `protocol.CompletionList` whose items
are kept as JSON. -/
def decodeCompletionList : Json → Except String (CompletionList Json)
  | .obj kvs =>
    match Json.member kvs "isIncomplete", Json.member kvs "items" with
    | some (.bool b), some (.arr xs) => .ok { IsIncomplete := b, Items := xs }
    | _, _ => .error "cannot unmarshal into Go value of type protocol.CompletionList"
  | _ => .error "cannot unmarshal into Go value of type protocol.CompletionList"

/-- A backend that answers every request with `reply`. -/
def constBackend (name : String) (reply : Json) : ProcessServer :=
  { name := name, conn := fun _ => .ok reply }

/-- Backend `A` of the completion scenario: an incomplete list with one item. -/
def completionA : ProcessServer :=
  constBackend "A" (.obj [("isIncomplete", .bool true), ("items", .arr [.str "iA"])])

/-- Backend `B` of the completion scenario: a complete list with two items. -/
def completionB : ProcessServer :=
  constBackend "B" (.obj [("isIncomplete", .bool false), ("items", .arr [.str "iB1", .str "iB2"])])

/-- A `textDocument/completion` request. -/
def completionReq : Request :=
  { Method := "textDocument/completion", Params := .obj [], Notif := false }

/-- Two backends `clangd` and `tsserver`, with `hover` routed to `0` and `tsserver` and
`completion` routed to a name no backend has. -/
def twoServers : ProxyServer :=
  { procs := [constBackend "clangd" (.str "from clangd"), constBackend "tsserver" (.str "from tsserver")],
    providers := fun key =>
      if key = "hover" then some ["0", "tsserver"]
      else if key = "completion" then some ["pyright"]
      else if key = "rename" then some ["1"]
      else none }

/-- A decoded JSON value as the Go value an `interface{}` field holds. -/
def Json.toGoVal : Json → GoVal
  | .null => .nil
  | .bool b => .bool b
  | .num n => .int n
  | .str s => .str s
  | .arr xs => .slice (toGoValList xs)
  | .obj kvs => .map (toGoValEntries kvs)
where
  /-- Element by element. -/
  toGoValList : List Json → List GoVal
    | [] => []
    | x :: xs => Json.toGoVal x :: toGoValList xs
  /-- Member by member. -/
  toGoValEntries : List (String × Json) → List (String × GoVal)
    | [] => []
    | (k, x) :: kvs => (k, Json.toGoVal x) :: toGoValEntries kvs

/-- Library model of unmarshalling a reply into a `protocol.InitializeResult`: each
member of `capabilities` fills the field of that name (capitalised). -/
def decodeInitializeResult : Json → Except String InitializeResult
  | .obj kvs =>
    match Json.member kvs "capabilities" with
    | some (.obj caps) =>
      .ok { ServerInfo := (Json.member kvs "serverInfo").getD .null,
            Capabilities := (Json.toGoVal.toGoValEntries caps).map
              (fun f => (f.1.capitalize, f.2)) }
    | _ => .error "cannot unmarshal into Go value of type protocol.InitializeResult"
  | _ => .error "cannot unmarshal into Go value of type protocol.InitializeResult"

/-- A diagnostic with an empty source. -/
def diagM1 : Diagnostic :=
  { Range := (1, 0, 1, 5), Severity := 1, Code := "", Source := "", Message := "m1" }

/-- A diagnostic with source `b`. -/
def diagM2 : Diagnostic :=
  { Range := (2, 0, 2, 5), Severity := 2, Code := "", Source := "b", Message := "m2" }

/-- A third diagnostic, with an empty source. -/
def diagM3 : Diagnostic :=
  { Range := (3, 0, 3, 5), Severity := 1, Code := "", Source := "", Message := "m3" }

/-- A backend giving no reply, for scenarios in which none is asked for. -/
def silentBackend (name : String) : ProcessServer :=
  { name := name, conn := fun _ => .error "no reply" }

/-- Three writes: `m1` under `(u, A)`, `m3` under `(v, A)`, `m2` under `(u, B)`. -/
def exampleLog : List Write :=
  [{ uri := "u", source := "A", diagnostics := [diagM1] },
   { uri := "v", source := "A", diagnostics := [diagM3] },
   { uri := "u", source := "B", diagnostics := [diagM2] }]

/-- Example decoding of the typed fields of `protocol.InitializeParams`: `processId` (an
`int32`) must be absent, `null` or a number in the `int32` range; only this
field is checked. -/
def decodeTypedFields (kvs : List (String × Json)) : Except String (List (String × Json)) :=
  match Json.member kvs "processId" with
  | none => .ok kvs
  | some .null => .ok kvs
  | some (.num n) =>
    if -2147483648 ≤ n ∧ n ≤ 2147483647 then .ok kvs
    else .error "cannot unmarshal number into Go struct field of type int32"
  | some _ => .error "cannot unmarshal into Go struct field of type int32"

/-- An `initialize` request carrying options for the backends `A` and `B`. -/
def initializeReq : Request :=
  { Method := "initialize",
    Params := .obj [("processId", .num 1),
      ("initializationOptions",
        .obj [("A", .obj [("x", .num 1)]), ("B", .obj [("y", .num 2)])])],
    Notif := false }

/-- Backend `A` of the initialize scenario: advertises hover. -/
def initA : ProcessServer :=
  constBackend "A" (.obj [("capabilities", .obj [("hoverProvider", .bool true)]),
    ("serverInfo", .obj [("name", .str "A")])])

/-- Backend `B` of the initialize scenario: advertises rename. -/
def initB : ProcessServer :=
  constBackend "B" (.obj [("capabilities", .obj [("renameProvider", .bool true)]),
    ("serverInfo", .obj [("name", .str "B")])])

/-! ## Theorems -/

theorem foldl_completionStep {ι : Type} (results : List (CompletionList ι))
    (acc : CompletionList ι) :
    results.foldl completionStep acc =
      { IsIncomplete := acc.IsIncomplete || results.any (fun r => r.IsIncomplete),
        Items := acc.Items ++
          ((results.filter (fun r => !r.IsIncomplete)).map (fun r => r.Items)).flatten } := by
  induction results generalizing acc with
  | nil => simp
  | cons r rs ih =>
    rw [List.foldl_cons, ih]
    by_cases h : r.IsIncomplete = true
    · simp [completionStep, h]
    · simp [completionStep, h, List.append_assoc]

theorem waitAll_eq_ok {τ : Type} (xs : List (Except String τ)) (rs : List τ) :
    waitAll xs = .ok rs ↔ xs = rs.map Except.ok := by
  induction xs generalizing rs with
  | nil => cases rs <;> simp [waitAll]
  | cons x xs ih =>
    cases x with
    | error e => cases rs <;> simp [waitAll]
    | ok r =>
      cases hw : waitAll xs with
      | error e =>
        cases rs with
        | nil => simp [waitAll, hw]
        | cons r' rs' =>
          have := (ih rs').not.mp (by simp [hw])
          simp [waitAll, hw, this]
      | ok rs0 =>
        have h0 := (ih rs0).mp hw
        cases rs with
        | nil => simp [waitAll, hw]
        | cons r' rs' =>
          simp only [waitAll, hw, List.map_cons, List.cons.injEq, Except.ok.injEq]
          constructor
          · rintro ⟨rfl, rfl⟩
            exact ⟨rfl, h0⟩
          · rintro ⟨rfl, h1⟩
            refine ⟨rfl, ?_⟩
            have := h0.symm.trans h1
            exact List.map_injective_iff.mpr (fun a b hab => by cases hab; rfl) this

theorem handleProcs_ok_iff {τ : Type} (decode : Json → Except String τ) (req : Request)
    (procs : List ProcessServer) (results : List τ) :
    (handleProcs decode req procs).2 = .ok results ↔
      procs.map (fun p => p.conn { method := req.Method, params := req.Params } >>= decode)
        = results.map Except.ok := by
  simp [handleProcs, waitAll_eq_ok, ProcessServer.Call, Function.comp_def]

theorem handleProcs_length {τ : Type} (decode : Json → Except String τ) (req : Request)
    (procs : List ProcessServer) (results : List τ)
    (h : (handleProcs decode req procs).2 = .ok results) :
    results.length = procs.length := by
  have := congrArg List.length ((handleProcs_ok_iff decode req procs results).mp h)
  simpa using this.symm

theorem selectProcs_eq (ps : List String) (i : Nat) (procs : List ProcessServer) :
    selectProcs ps i procs =
      ((procs.enumFrom i).filter
        (fun ip => decide (toString ip.1 ∈ ps ∨ ip.2.name ∈ ps))).map Prod.snd := by
  induction procs generalizing i with
  | nil => simp [selectProcs]
  | cons p rest ih =>
    by_cases h : toString i ∈ ps ∨ p.name ∈ ps
    · simp [selectProcs, List.enumFrom_cons, List.filter_cons, h, ih, ProcessServer.Name]
    · simp [selectProcs, List.enumFrom_cons, List.filter_cons, h, ih, ProcessServer.Name]

theorem handleTextDocumentCompletion_ok {ι : Type} (s : ProxyServer)
    (decode : Json → Except String (CompletionList ι)) (req : Request)
    (procs : List ProcessServer) (results : List (CompletionList ι))
    (h : (handleProcs decode req procs).2 = .ok results) :
    (s.handleTextDocumentCompletion decode req procs).2 =
      .ok (results.foldl completionStep { IsIncomplete := false, Items := [] }) := by
  unfold ProxyServer.handleTextDocumentCompletion
  rcases hp : handleProcs decode req procs with ⟨sent, r⟩
  rw [hp] at h
  simp only at h
  subst h
  rfl

/-- C1: the completion fan-out concatenates, in backend order, the items of the
results that are not incomplete (so the length is the sum of their lengths),
and the merged list is incomplete exactly when some result is. -/
theorem handleTextDocumentCompletion_merge {ι : Type} (s : ProxyServer)
    (decode : Json → Except String (CompletionList ι)) (req : Request)
    (procs : List ProcessServer) (results : List (CompletionList ι))
    (h : (handleProcs decode req procs).2 = .ok results) :
    ∃ merged, (s.handleTextDocumentCompletion decode req procs).2 = .ok merged ∧
      merged.Items =
        ((results.filter (fun r => !r.IsIncomplete)).map (fun r => r.Items)).flatten ∧
      merged.Items.length =
        ((results.filter (fun r => !r.IsIncomplete)).map (fun r => r.Items.length)).sum ∧
      (merged.IsIncomplete = true ↔ ∃ r ∈ results, r.IsIncomplete = true) := by
  refine ⟨results.foldl completionStep { IsIncomplete := false, Items := [] },
    handleTextDocumentCompletion_ok s decode req procs results h, ?_, ?_, ?_⟩
  · simp [foldl_completionStep]
  · simp [foldl_completionStep, List.length_flatten, Function.comp_def]
  · simp [foldl_completionStep]

/-- Witness for C1: backend `A` answers incomplete with `[iA]`, backend `B` complete with
`[iB1, iB2]`. -/
theorem handleTextDocumentCompletion_merge_witness :
    (handleProcs decodeCompletionList completionReq [completionA, completionB]).2
        = .ok [{ IsIncomplete := true, Items := [.str "iA"] },
               { IsIncomplete := false, Items := [.str "iB1", .str "iB2"] }] ∧
    ∃ merged, (ProxyServer.handleTextDocumentCompletion
          { procs := [completionA, completionB], providers := fun _ => none }
          decodeCompletionList completionReq [completionA, completionB]).2 = .ok merged ∧
      merged.Items = [.str "iB1", .str "iB2"] ∧
      merged.Items.length = 2 ∧
      (merged.IsIncomplete = true ↔
        ∃ r ∈ [({ IsIncomplete := true, Items := [.str "iA"] } : CompletionList Json),
               { IsIncomplete := false, Items := [.str "iB1", .str "iB2"] }],
          r.IsIncomplete = true) :=
  ⟨rfl, handleTextDocumentCompletion_merge _ decodeCompletionList completionReq
    [completionA, completionB] _ rfl⟩

theorem providerMap_eq_lookup (method : String) :
    providerMap method = mappedMethods.lookup method := by
  unfold providerMap mappedMethods
  simp only [List.lookup]
  repeat' split
  all_goals first | rfl | simp_all

theorem getProcsByProviders_routed (s : ProxyServer) (method key : String) (ps : List String)
    (hkey : providerMap method = some key) (hps : s.providers key = some ps) (hne : ps ≠ []) :
    s.getProcsByProviders method =
      if (matchingProcs ps s.procs).length = 0 then s.procs
      else matchingProcs ps s.procs := by
  have hlen : ps.length ≠ 0 := by simpa using hne
  simp only [ProxyServer.getProcsByProviders, hkey, hps, hlen, if_false, selectProcs_eq,
    matchingProcs, List.enum]

theorem getProcsByProviders_fallback (s : ProxyServer) (method : String)
    (h : providerMap method = none ∨ ∃ key, providerMap method = some key ∧
      (s.providers key = none ∨ s.providers key = some [])) :
    s.getProcsByProviders method = s.procs := by
  rcases h with h | ⟨key, hkey, h | h⟩
  · simp [ProxyServer.getProcsByProviders, h]
  · simp [ProxyServer.getProcsByProviders, hkey, h]
  · simp [ProxyServer.getProcsByProviders, hkey, h]

/-- C2: routing by providers.  The capability key of a method is looked up in the fixed
table of six methods.  When the key has a non-empty provider list and some
backend matches (its position in decimal, or its name, is in the list), exactly
the matching backends are returned, in launch order; when no backend matches,
when the key is absent from the provider table or has an empty list, or when
the method is not one of the six, all backends are returned. -/
theorem getProcsByProviders_spec (s : ProxyServer) (method : String) :
    providerMap method = mappedMethods.lookup method ∧
    (∀ key ps, providerMap method = some key → s.providers key = some ps → ps ≠ [] →
      matchingProcs ps s.procs ≠ [] →
        s.getProcsByProviders method = matchingProcs ps s.procs) ∧
    (∀ key ps, providerMap method = some key → s.providers key = some ps → ps ≠ [] →
      matchingProcs ps s.procs = [] → s.getProcsByProviders method = s.procs) ∧
    (∀ key, providerMap method = some key →
      (s.providers key = none ∨ s.providers key = some []) →
        s.getProcsByProviders method = s.procs) ∧
    (providerMap method = none → s.getProcsByProviders method = s.procs) := by
  refine ⟨providerMap_eq_lookup method, ?_, ?_, ?_, ?_⟩
  · intro key ps hkey hps hne hm
    rw [getProcsByProviders_routed s method key ps hkey hps hne, if_neg (by simpa using hm)]
  · intro key ps hkey hps hne hm
    rw [getProcsByProviders_routed s method key ps hkey hps hne, if_pos (by simp [hm])]
  · intro key hkey h
    exact getProcsByProviders_fallback s method (Or.inr ⟨key, hkey, h⟩)
  · intro h
    exact getProcsByProviders_fallback s method (Or.inl h)

/-- Witness for C2 on two backends `clangd` and `tsserver`: `hover` routed to `0,tsserver`
reaches both; `rename` routed to `1` reaches only `tsserver`; `completion`
routed to an unknown name, `definition` without providers and `initialize`
(not a mapped method) reach all backends. -/
theorem getProcsByProviders_spec_witness :
    twoServers.getProcsByProviders "textDocument/hover"
        = matchingProcs ["0", "tsserver"] twoServers.procs ∧
    matchingProcs ["0", "tsserver"] twoServers.procs = twoServers.procs ∧
    twoServers.getProcsByProviders "textDocument/rename"
        = matchingProcs ["1"] twoServers.procs ∧
    matchingProcs ["1"] twoServers.procs = [constBackend "tsserver" (.str "from tsserver")] ∧
    twoServers.getProcsByProviders "textDocument/completion" = twoServers.procs ∧
    twoServers.getProcsByProviders "textDocument/definition" = twoServers.procs ∧
    twoServers.getProcsByProviders "initialize" = twoServers.procs :=
  ⟨(getProcsByProviders_spec twoServers "textDocument/hover").2.1 "hover" ["0", "tsserver"]
      rfl rfl (by decide) (ne_of_apply_ne List.length (by decide)),
   rfl,
   (getProcsByProviders_spec twoServers "textDocument/rename").2.1 "rename" ["1"]
      rfl rfl (by decide) (ne_of_apply_ne List.length (by decide)),
   rfl,
   (getProcsByProviders_spec twoServers "textDocument/completion").2.2.1 "completion"
      ["pyright"] rfl rfl (by decide) rfl,
   (getProcsByProviders_spec twoServers "textDocument/definition").2.2.2.1 "definition"
      rfl (Or.inl rfl),
   (getProcsByProviders_spec twoServers "initialize").2.2.2.2 rfl⟩

theorem mergeStep_eq (rec : GoVal → GoVal → Option GoVal) (o n : GoVal) :
    mergeStep rec o n =
      if n.isNil then some o
      else if o.isNil then some n
      else if (deref o).isSome then some n
      else if (deref n).isSome then some o
      else none := by
  unfold mergeStep
  by_cases h1 : n.isNil = true
  · simp [h1]
  by_cases h2 : o.isNil = true
  · simp [h1, h2]
  by_cases h3 : (deref o).isSome = true
  · simp [h1, h2, h3]
  by_cases h4 : (deref n).isSome = true
  · simp [h1, h2, h3, h4]
  have h5 : deref n = none := by simpa using h4
  simp [h1, h2, h3, h5]

theorem merge_eq (o n : GoVal) :
    merge o n =
      if n.isNil then some o
      else if o.isNil then some n
      else if (deref o).isSome then some n
      else if (deref n).isSome then some o
      else none := by
  unfold merge
  rw [mergeFuel, mergeStep_eq]

theorem initializeStep_eq (inititalize result : InitializeResult) :
    initializeStep inititalize result =
      some { inititalize with Capabilities := result.Capabilities } := by
  unfold initializeStep
  rw [merge_eq]
  simp [GoVal.isNil, deref]

theorem initializeLoop_eq (inititalize : InitializeResult) (rest : List InitializeResult) :
    initializeLoop inititalize rest =
      some { ServerInfo := inititalize.ServerInfo,
             Capabilities := ((rest.getLast?).map (fun r => r.Capabilities)).getD
               inititalize.Capabilities } := by
  induction rest generalizing inititalize with
  | nil => simp [initializeLoop]
  | cons r rs ih =>
    rw [initializeLoop, initializeStep_eq]
    simp only [ih]
    cases rs with
    | nil => simp
    | cons r' rs' =>
      rw [List.getLast?_cons_cons]
      cases hl : (r' :: rs').getLast? with
      | none => simp at hl
      | some x => simp

theorem handleInitialize_ok (s : ProxyServer) (decode : Json → Except String InitializeResult)
    (req : Request) (procs : List ProcessServer) (first : InitializeResult)
    (rest : List InitializeResult)
    (h : (handleProcs decode req procs).2 = .ok (first :: rest)) :
    (s.handleInitialize decode req procs).2 =
      some (.ok { ServerInfo := first.ServerInfo,
                  Capabilities := ((rest.getLast?).map (fun r => r.Capabilities)).getD
                    first.Capabilities }) := by
  unfold ProxyServer.handleInitialize
  rcases hp : handleProcs decode req procs with ⟨sent, r⟩
  rw [hp] at h
  simp only at h
  subst h
  simp [initializeLoop_eq]

/-- C9 (amended): with exactly one backend, the completion fan-out returns the backend's
`isIncomplete`, and the backend's items when its list is complete but no item
when it is incomplete; the initialize fan-out returns the backend's result,
capabilities and server info, unchanged. -/
theorem single_backend_fanout {ι : Type} (s : ProxyServer) (p : ProcessServer)
    (req : Request) :
    (∀ (decode : Json → Except String (CompletionList ι)) (R : CompletionList ι),
      (handleProcs decode req [p]).2 = .ok [R] →
        (s.handleTextDocumentCompletion decode req [p]).2 =
          .ok { IsIncomplete := R.IsIncomplete,
                Items := if R.IsIncomplete then [] else R.Items }) ∧
    (∀ (decode : Json → Except String InitializeResult) (R : InitializeResult),
      (handleProcs decode req [p]).2 = .ok [R] →
        (s.handleInitialize decode req [p]).2 = some (.ok R)) := by
  constructor
  · intro decode R h
    rw [handleTextDocumentCompletion_ok s decode req [p] [R] h]
    cases hR : R.IsIncomplete <;> simp [completionStep, hR]
  · intro decode R h
    rw [handleInitialize_ok s decode req [p] R [] h]
    simp

/-- Witness for C9 (amended): backend `B` alone answers a complete list, and backend `A`
alone answers `initialize`. -/
theorem single_backend_fanout_witness :
    (handleProcs decodeCompletionList completionReq [completionB]).2
        = .ok [{ IsIncomplete := false, Items := [.str "iB1", .str "iB2"] }] ∧
    (ProxyServer.handleTextDocumentCompletion { procs := [completionB], providers := fun _ => none }
        decodeCompletionList completionReq [completionB]).2
        = .ok { IsIncomplete := false, Items := [.str "iB1", .str "iB2"] } ∧
    (handleProcs decodeInitializeResult initializeReq [initA]).2
        = .ok [{ ServerInfo := .obj [("name", .str "A")],
                 Capabilities := [("HoverProvider", .bool true)] }] ∧
    (ProxyServer.handleInitialize { procs := [initA], providers := fun _ => none }
        decodeInitializeResult initializeReq [initA]).2
        = some (.ok { ServerInfo := .obj [("name", .str "A")],
                      Capabilities := [("HoverProvider", .bool true)] }) :=
  ⟨rfl,
   (single_backend_fanout { procs := [completionB], providers := fun _ => none } completionB
      completionReq).1 decodeCompletionList
      { IsIncomplete := false, Items := [.str "iB1", .str "iB2"] } rfl,
   rfl,
   (@single_backend_fanout Json { procs := [initA], providers := fun _ => none } initA
      initializeReq).2 decodeInitializeResult
      { ServerInfo := .obj [("name", .str "A")],
        Capabilities := [("HoverProvider", .bool true)] } rfl⟩

/-- Counterexample to C9 as stated: backend `A` alone returns the incomplete list
`[iA]`; the fan-out yields no item, not `A`'s items. -/
theorem single_backend_incomplete_items_dropped :
    (handleProcs decodeCompletionList completionReq [completionA]).2
        = .ok [{ IsIncomplete := true, Items := [.str "iA"] }] ∧
    (ProxyServer.handleTextDocumentCompletion { procs := [completionA], providers := fun _ => none }
        decodeCompletionList completionReq [completionA]).2
        = .ok { IsIncomplete := true, Items := [] } ∧
    ¬ ((ProxyServer.handleTextDocumentCompletion
          { procs := [completionA], providers := fun _ => none }
          decodeCompletionList completionReq [completionA]).2
        = .ok { IsIncomplete := true, Items := [.str "iA"] }) := by
  refine ⟨rfl, rfl, ?_⟩
  intro h
  have h2 : (Except.ok { IsIncomplete := true, Items := [] } :
      Except String (CompletionList Json)) = .ok { IsIncomplete := true, Items := [.str "iA"] } :=
    h
  simp at h2

theorem selectProcs_sublist (ps : List String) (i : Nat) (procs : List ProcessServer) :
    (selectProcs ps i procs).Sublist procs := by
  induction procs generalizing i with
  | nil => simp [selectProcs]
  | cons p rest ih =>
    unfold selectProcs
    split
    · exact (ih (i + 1)).cons₂ p
    · exact (ih (i + 1)).cons p

theorem selectProcs_congr (ps ps' : List String) (h : ∀ x, x ∈ ps ↔ x ∈ ps') (i : Nat)
    (procs : List ProcessServer) : selectProcs ps i procs = selectProcs ps' i procs := by
  induction procs generalizing i with
  | nil => simp [selectProcs]
  | cons p rest ih => simp [selectProcs, h, ih]

theorem selectProcs_head (ps : List String) (i : Nat) (procs : List ProcessServer)
    (h : selectProcs ps i procs ≠ []) :
    ∃ k p, procs[k]? = some p ∧ (selectProcs ps i procs).head? = some p ∧
      (toString (i + k) ∈ ps ∨ p.name ∈ ps) ∧
      ∀ j q, j < k → procs[j]? = some q → ¬ (toString (i + j) ∈ ps ∨ q.name ∈ ps) := by
  induction procs generalizing i with
  | nil => simp [selectProcs] at h
  | cons p rest ih =>
    by_cases hm : toString i ∈ ps ∨ p.name ∈ ps
    · refine ⟨0, p, by simp, ?_, by simpa using hm, ?_⟩
      · simp [selectProcs, hm, ProcessServer.Name]
      · intro j q hj
        omega
    · have hsel : selectProcs ps i (p :: rest) = selectProcs ps (i + 1) rest := by
        simp [selectProcs, hm, ProcessServer.Name]
      rw [hsel] at h ⊢
      obtain ⟨k, q, hk, hhead, hmatch, hleast⟩ := ih (i + 1) h
      refine ⟨k + 1, q, by simpa using hk, hhead, ?_, ?_⟩
      · have : i + (k + 1) = i + 1 + k := by omega
        rw [this]
        exact hmatch
      · intro j r hj hr
        cases j with
        | zero =>
          simp at hr
          subst hr
          simpa using hm
        | succ j =>
          have := hleast j r (by omega) (by simpa using hr)
          have e : i + (j + 1) = i + 1 + j := by omega
          rw [e]
          exact this

theorem matchingProcs_eq_selectProcs (ps : List String) (procs : List ProcessServer) :
    matchingProcs ps procs = selectProcs ps 0 procs := by
  rw [selectProcs_eq]
  rfl

theorem getProcsByProviders_cases (s : ProxyServer) (method : String) :
    s.getProcsByProviders method = s.procs ∨
      ∃ key ps, providerMap method = some key ∧ s.providers key = some ps ∧
        matchingProcs ps s.procs ≠ [] ∧
        s.getProcsByProviders method = matchingProcs ps s.procs := by
  cases hkey : providerMap method with
  | none => exact Or.inl (getProcsByProviders_fallback s method (Or.inl hkey))
  | some key =>
    cases hps : s.providers key with
    | none => exact Or.inl (getProcsByProviders_fallback s method (Or.inr ⟨key, hkey, Or.inl hps⟩))
    | some ps =>
      by_cases hne : ps = []
      · subst hne
        exact Or.inl (getProcsByProviders_fallback s method (Or.inr ⟨key, hkey, Or.inr hps⟩))
      · by_cases hm : matchingProcs ps s.procs = []
        · refine Or.inl ?_
          rw [getProcsByProviders_routed s method key ps hkey hps hne, if_pos (by simp [hm])]
        · refine Or.inr ⟨key, ps, rfl, hps, hm, ?_⟩
          rw [getProcsByProviders_routed s method key ps hkey hps hne,
            if_neg (by simpa using hm)]

theorem getProcsByProviders_congr (s s' : ProxyServer) (method : String)
    (hprocs : s'.procs = s.procs)
    (h : ∀ key x, x ∈ (s.providers key).getD [] ↔ x ∈ (s'.providers key).getD []) :
    s'.getProcsByProviders method = s.getProcsByProviders method := by
  have hnil : ∀ ps : List String, (∀ x, x ∈ ([] : List String) ↔ x ∈ ps) → ps = [] := by
    intro ps hps
    exact List.eq_nil_iff_forall_not_mem.mpr (fun x hx => by simpa using (hps x).mpr hx)
  unfold ProxyServer.getProcsByProviders
  rw [hprocs]
  cases providerMap method with
  | none => rfl
  | some key =>
    have hk := h key
    simp only
    cases hs : s.providers key with
    | none =>
      cases hs' : s'.providers key with
      | none => rfl
      | some ps' =>
        rw [hs, hs'] at hk
        have := hnil ps' (by simpa using hk)
        subst this
        simp
    | some ps =>
      cases hs' : s'.providers key with
      | none =>
        rw [hs, hs'] at hk
        have := hnil ps (by simpa using fun x => (hk x).symm)
        subst this
        simp
      | some ps' =>
        rw [hs, hs'] at hk
        simp only [Option.getD_some] at hk
        by_cases hne : ps = []
        · subst hne
          have := hnil ps' hk
          subst this
          rfl
        · have hne' : ps' ≠ [] := by
            intro e
            subst e
            exact hne (hnil ps (fun x => (hk x).symm))
          have e := selectProcs_congr ps ps' hk 0 s.procs
          simp only [List.length_eq_zero, hne, hne', if_false]
          rw [e]

theorem handle_default_head (s : ProxyServer)
    (decodeInit : Json → Except String InitializeResult)
    (decodeCompletion : Json → Except String (CompletionList Json)) (req : Request)
    (procs : List ProcessServer) (p : ProcessServer) (results : List Json)
    (hhead : procs.head? = some p)
    (h1 : req.Method ≠ "initialize") (h2 : req.Method ≠ "textDocument/completion")
    (h : (handleProcs (fun j => .ok j) req procs).2 = .ok results) :
    ∃ reply, p.conn { method := req.Method, params := req.Params } = .ok reply ∧
      (s.handle decodeInit decodeCompletion req procs).2 = some (.ok (.raw reply)) := by
  cases procs with
  | nil => simp at hhead
  | cons p0 rest =>
    simp only [List.head?_cons, Option.some.injEq] at hhead
    subst hhead
    have hiff := (handleProcs_ok_iff (fun j => Except.ok j) req (p0 :: rest) results).mp h
    cases results with
    | nil => simp at hiff
    | cons first more =>
      simp only [List.map_cons, List.cons.injEq] at hiff
      have hconn : p0.conn { method := req.Method, params := req.Params } = .ok first := by
        have h0 := hiff.1
        cases hc : p0.conn { method := req.Method, params := req.Params } with
        | error e => rw [hc] at h0; cases h0
        | ok r =>
          rw [hc] at h0
          have : (Except.ok r : Except String Json) = .ok first := h0
          rw [this]
      refine ⟨first, hconn, ?_⟩
      unfold ProxyServer.handle
      rw [if_neg h1, if_neg h2]
      rcases hp : handleProcs (fun j => Except.ok j) req (p0 :: rest) with ⟨sent, r⟩
      rw [hp] at h
      simp only at h
      subst h
      rfl

theorem matchingProcs_ne_nil (ps : List String) (procs : List ProcessServer) (i : Nat)
    (p : ProcessServer) (hp : procs[i]? = some p) (hm : toString i ∈ ps ∨ p.name ∈ ps) :
    matchingProcs ps procs ≠ [] := by
  intro h
  have hmem : p ∈ matchingProcs ps procs := by
    unfold matchingProcs
    refine List.mem_map.mpr ⟨(i, p), List.mem_filter.mpr ⟨?_, by simpa using hm⟩, rfl⟩
    exact List.mk_mem_enum_iff_getElem?.mpr hp
  rw [h] at hmem
  cases hmem

theorem exists_of_matchingProcs_ne_nil (ps : List String) (procs : List ProcessServer)
    (h : matchingProcs ps procs ≠ []) :
    ∃ (i : Nat) (p : ProcessServer), procs[i]? = some p ∧ (toString i ∈ ps ∨ p.name ∈ ps) := by
  rw [matchingProcs_eq_selectProcs] at h
  obtain ⟨k, p, hk, -, hm, -⟩ := selectProcs_head ps 0 procs h
  exact ⟨k, p, hk, by simpa using hm⟩

theorem lookup_mappedMethods_ne (method key : String)
    (h : mappedMethods.lookup method = some key) : method ≠ "initialize" := by
  rintro rfl
  have hnone : mappedMethods.lookup "initialize" = none := by decide
  rw [hnone] at h
  cases h

theorem getProcsByProviders_head (s : ProxyServer) (method key : String) (ps : List String)
    (i : Nat) (p : ProcessServer)
    (hkey : mappedMethods.lookup method = some key) (hps : s.providers key = some ps)
    (hp : s.procs[i]? = some p) (hm : toString i ∈ ps ∨ p.name ∈ ps)
    (hleast : ∀ (j : Nat) (q : ProcessServer), j < i → s.procs[j]? = some q →
      ¬ (toString j ∈ ps ∨ q.name ∈ ps)) :
    s.getProcsByProviders method = matchingProcs ps s.procs ∧
      (s.getProcsByProviders method).head? = some p := by
  have hne := matchingProcs_ne_nil ps s.procs i p hp hm
  have hpsne : ps ≠ [] := by
    intro e
    subst e
    exact hne (by simp [matchingProcs])
  have hsel : s.getProcsByProviders method = matchingProcs ps s.procs := by
    rw [getProcsByProviders_routed s method key ps
      ((providerMap_eq_lookup method).trans hkey) hps hpsne, if_neg (by simpa using hne)]
  refine ⟨hsel, ?_⟩
  have hne' := hne
  rw [matchingProcs_eq_selectProcs] at hne'
  obtain ⟨k, p', hk, hhead, hmk, hleastk⟩ := selectProcs_head ps 0 s.procs hne'
  have hki : k = i := by
    rcases Nat.lt_trichotomy k i with hlt | heq | hgt
    · exact absurd (by simpa using hmk) (hleast k p' hlt hk)
    · exact heq
    · exact absurd (by simpa using hm) (hleastk i p hgt hp)
  subst hki
  rw [hk] at hp
  cases hp
  rw [hsel, matchingProcs_eq_selectProcs]
  exact hhead

/-- C10: with at least one backend, the routed backends are a non-empty sublist of the
backend list (launch order kept); they depend only on which selectors are in
the provider lists, not on their order or multiplicity; every result list of
the fan-out has an element at position 0 and `handle` does not panic.  For a
method of the six-entry table whose capability key has providers, the routed
backends are exactly the matching ones as soon as one matches, the first of
them is the matching backend of lowest position, and its reply is the one
`handle` returns for a method without a merge; when no backend matches (or
the method is not in the table, or its key has no providers) all backends
are routed and the reply is the one of the first backend. -/
theorem getProcsByProviders_nonempty_sublist (s : ProxyServer) (method : String)
    (hprocs : s.procs ≠ []) :
    s.getProcsByProviders method ≠ [] ∧
    (s.getProcsByProviders method).Sublist s.procs ∧
    (∀ s' : ProxyServer, s'.procs = s.procs →
      (∀ key x, x ∈ (s.providers key).getD [] ↔ x ∈ (s'.providers key).getD []) →
        s'.getProcsByProviders method = s.getProcsByProviders method) ∧
    (∀ (τ : Type) (decode : Json → Except String τ) (req : Request) (results : List τ),
      ((handleProcs decode req (s.getProcsByProviders method)).2 = .ok results ∨
        (handleProcs decode req s.procs).2 = .ok results) → 0 < results.length) ∧
    (∀ (decodeInit : Json → Except String InitializeResult)
      (decodeCompletion : Json → Except String (CompletionList Json)) (req : Request),
      (s.handle decodeInit decodeCompletion req (s.getProcsByProviders req.Method)).2 ≠ none) ∧
    (∀ key ps, mappedMethods.lookup method = some key → s.providers key = some ps →
      matchingProcs ps s.procs ≠ [] →
        s.getProcsByProviders method = matchingProcs ps s.procs) ∧
    (∀ (key : String) (ps : List String) (i : Nat) (p : ProcessServer),
      mappedMethods.lookup method = some key → s.providers key = some ps →
      s.procs[i]? = some p → (toString i ∈ ps ∨ p.name ∈ ps) →
      (∀ (j : Nat) (q : ProcessServer), j < i → s.procs[j]? = some q →
        ¬ (toString j ∈ ps ∨ q.name ∈ ps)) →
        (s.getProcsByProviders method).head? = some p ∧
        ∀ (decodeInit : Json → Except String InitializeResult)
          (decodeCompletion : Json → Except String (CompletionList Json)) (req : Request)
          (results : List Json),
          req.Method = method → method ≠ "textDocument/completion" →
          (handleProcs (fun j => .ok j) req (s.getProcsByProviders method)).2 = .ok results →
            ∃ reply, p.conn { method := req.Method, params := req.Params } = .ok reply ∧
              (s.handle decodeInit decodeCompletion req (s.getProcsByProviders method)).2
                = some (.ok (.raw reply))) ∧
    ((∀ key ps, mappedMethods.lookup method = some key → s.providers key = some ps →
        matchingProcs ps s.procs = []) →
      s.getProcsByProviders method = s.procs ∧
      ∀ p, s.procs.head? = some p →
        ∀ (decodeInit : Json → Except String InitializeResult)
          (decodeCompletion : Json → Except String (CompletionList Json)) (req : Request)
          (results : List Json),
          req.Method = method → method ≠ "initialize" →
          method ≠ "textDocument/completion" →
          (handleProcs (fun j => .ok j) req (s.getProcsByProviders method)).2 = .ok results →
            ∃ reply, p.conn { method := req.Method, params := req.Params } = .ok reply ∧
              (s.handle decodeInit decodeCompletion req (s.getProcsByProviders method)).2
                = some (.ok (.raw reply))) := by
  have hne : ∀ m, s.getProcsByProviders m ≠ [] := by
    intro m
    rcases getProcsByProviders_cases s m with h | ⟨key, ps, -, -, hm, h⟩
    · rw [h]; exact hprocs
    · rw [h]; exact hm
  have hlen : ∀ (τ : Type) (decode : Json → Except String τ) (req : Request)
      (procs : List ProcessServer) (results : List τ), procs ≠ [] →
      (handleProcs decode req procs).2 = .ok results → 0 < results.length := by
    intro τ decode req procs results hp h
    rw [handleProcs_length decode req procs results h]
    exact List.length_pos.mpr hp
  refine ⟨hne method, ?_, ?_, ?_, ?_, ?_, ?_, ?_⟩
  · rcases getProcsByProviders_cases s method with h | ⟨key, ps, -, -, -, h⟩
    · rw [h]
    · rw [h, matchingProcs_eq_selectProcs]
      exact selectProcs_sublist ps 0 s.procs
  · intro s' hp h
    exact getProcsByProviders_congr s s' method hp h
  · intro τ decode req results h
    rcases h with h | h
    · exact hlen τ decode req _ results (hne method) h
    · exact hlen τ decode req _ results hprocs h
  · intro decodeInit decodeCompletion req
    unfold ProxyServer.handle
    split_ifs with h1 h2
    · cases hr : (handleProcs decodeInit req s.procs).2 with
      | error e =>
        have : (s.handleInitialize decodeInit req s.procs).2 = some (.error e) := by
          unfold ProxyServer.handleInitialize
          rcases hp : handleProcs decodeInit req s.procs with ⟨sent, r⟩
          rw [hp] at hr
          simp only at hr
          subst hr
          rfl
        rcases hq : s.handleInitialize decodeInit req s.procs with ⟨sent, r⟩
        rw [hq] at this
        simp only at this
        subst this
        simp
      | ok results =>
        have hpos := hlen _ decodeInit req _ results hprocs hr
        cases results with
        | nil => simp at hpos
        | cons first rest =>
          have := handleInitialize_ok s decodeInit req s.procs first rest hr
          rcases hq : s.handleInitialize decodeInit req s.procs with ⟨sent, r⟩
          rw [hq] at this
          simp only at this
          subst this
          simp
    · rcases hq : s.handleTextDocumentCompletion decodeCompletion req
        (s.getProcsByProviders req.Method) with ⟨sent, r⟩
      simp
    · rcases hp : handleProcs (fun j => Except.ok j) req (s.getProcsByProviders req.Method)
        with ⟨sent, r⟩
      cases r with
      | error e => simp
      | ok results =>
        have hpos := hlen _ (fun j => Except.ok j) req _ results (hne req.Method)
          (by rw [hp])
        cases results with
        | nil => simp at hpos
        | cons first rest => simp
  · intro key ps hkey hps hm
    obtain ⟨i, p, hp, hmatch⟩ := exists_of_matchingProcs_ne_nil ps s.procs hm
    have hpsne : ps ≠ [] := by
      intro e
      subst e
      exact hm (by simp [matchingProcs])
    rw [getProcsByProviders_routed s method key ps
      ((providerMap_eq_lookup method).trans hkey) hps hpsne, if_neg (by simpa using hm)]
  · intro key ps i p hkey hps hp hm hleast
    have hhead := (getProcsByProviders_head s method key ps i p hkey hps hp hm hleast).2
    refine ⟨hhead, ?_⟩
    intro decodeInit decodeCompletion req results hmeth h2 h
    subst hmeth
    exact handle_default_head s decodeInit decodeCompletion req _ p results hhead
      (lookup_mappedMethods_ne req.Method key hkey) h2 h
  · intro hno
    have hall : s.getProcsByProviders method = s.procs := by
      rcases getProcsByProviders_cases s method with h | ⟨key, ps, hkey, hps, hm, -⟩
      · exact h
      · exact absurd (hno key ps ((providerMap_eq_lookup method).symm.trans hkey) hps) hm
    refine ⟨hall, ?_⟩
    intro p hp decodeInit decodeCompletion req results hmeth h1 h2 h
    subst hmeth
    have hhead : (s.getProcsByProviders req.Method).head? = some p := by rw [hall]; exact hp
    exact handle_default_head s decodeInit decodeCompletion req _ p results hhead h1 h2 h

/-- Witness for C10 on the backends `clangd` (position 0) and `tsserver` (position 1):
`rename` routed to `1` reaches `tsserver` only, a strict sublist, and the
rename reply is the one of `tsserver`; `hover` routed to `0,tsserver` reaches
both and the hover reply is the one of `clangd`; `completion` routed to a
name no backend has falls back to all backends. -/
theorem getProcsByProviders_nonempty_sublist_witness :
    twoServers.procs ≠ [] ∧
    twoServers.getProcsByProviders "textDocument/rename" ≠ [] ∧
    (twoServers.getProcsByProviders "textDocument/rename").Sublist twoServers.procs ∧
    twoServers.getProcsByProviders "textDocument/rename"
      = matchingProcs ["1"] twoServers.procs ∧
    matchingProcs ["1"] twoServers.procs = [constBackend "tsserver" (.str "from tsserver")] ∧
    (twoServers.getProcsByProviders "textDocument/rename").head?
      = some (constBackend "tsserver" (.str "from tsserver")) ∧
    (∃ reply, (constBackend "tsserver" (.str "from tsserver")).conn
          { method := "textDocument/rename", params := .obj [] } = .ok reply ∧
        (twoServers.handle decodeInitializeResult decodeCompletionList
          { Method := "textDocument/rename", Params := .obj [], Notif := false }
          (twoServers.getProcsByProviders "textDocument/rename")).2
        = some (.ok (.raw reply))) ∧
    (twoServers.handle decodeInitializeResult decodeCompletionList
        { Method := "textDocument/rename", Params := .obj [], Notif := false }
        (twoServers.getProcsByProviders "textDocument/rename")).2
      = some (.ok (.raw (.str "from tsserver"))) ∧
    (twoServers.getProcsByProviders "textDocument/hover").head?
      = some (constBackend "clangd" (.str "from clangd")) ∧
    (twoServers.handle decodeInitializeResult decodeCompletionList
        { Method := "textDocument/hover", Params := .obj [], Notif := false }
        (twoServers.getProcsByProviders "textDocument/hover")).2
      = some (.ok (.raw (.str "from clangd"))) ∧
    twoServers.getProcsByProviders "textDocument/completion" = twoServers.procs :=
  have hprocs : twoServers.procs ≠ [] := List.cons_ne_nil _ _
  have hleast : ∀ (j : Nat) (q : ProcessServer), j < 1 → twoServers.procs[j]? = some q →
      ¬ (toString j ∈ ["1"] ∨ q.name ∈ ["1"]) := by
    intro j q hj hq
    have hj0 : j = 0 := by omega
    subst hj0
    have hq' : q = constBackend "clangd" (.str "from clangd") := by
      have : some (constBackend "clangd" (.str "from clangd")) = some q := hq
      exact (Option.some.inj this).symm
    subst hq'
    decide
  have hrename := (getProcsByProviders_nonempty_sublist twoServers "textDocument/rename"
      hprocs).2.2.2.2.2.2.1 "rename" ["1"] 1 (constBackend "tsserver" (.str "from tsserver"))
      rfl rfl rfl (by decide) hleast
  ⟨hprocs,
   (getProcsByProviders_nonempty_sublist twoServers "textDocument/rename" hprocs).1,
   (getProcsByProviders_nonempty_sublist twoServers "textDocument/rename" hprocs).2.1,
   (getProcsByProviders_nonempty_sublist twoServers "textDocument/rename"
      hprocs).2.2.2.2.2.1 "rename" ["1"] rfl rfl (ne_of_apply_ne List.length (by decide)),
   rfl,
   hrename.1,
   hrename.2 decodeInitializeResult decodeCompletionList
      { Method := "textDocument/rename", Params := .obj [], Notif := false }
      [.str "from tsserver"] rfl (by decide) rfl,
   rfl,
   ((getProcsByProviders_nonempty_sublist twoServers "textDocument/hover"
      hprocs).2.2.2.2.2.2.1 "hover" ["0", "tsserver"] 0
      (constBackend "clangd" (.str "from clangd")) rfl rfl rfl (by decide)
      (fun j _ hj => absurd hj (Nat.not_lt_zero j))).1,
   rfl,
   ((getProcsByProviders_nonempty_sublist twoServers "textDocument/completion"
      hprocs).2.2.2.2.2.2.2 (by
        intro key ps hkey hps
        have hk : key = "completion" := by
          have : some "completion" = some key := hkey
          exact (Option.some.inj this).symm
        subst hk
        have hp : ps = ["pyright"] := by
          have : some ["pyright"] = some ps := hps
          exact (Option.some.inj this).symm
        subst hp
        rfl)).1⟩

theorem GoMap.lookup_cons {ν : Type} (m : List (String × ν)) (a k : String) (b : ν) :
    List.lookup k ((a, b) :: m) = if k = a then some b else List.lookup k m := by
  by_cases h : k = a
  · simp [List.lookup, h]
  · have hb : (k == a) = false := by simpa using h
    simp [List.lookup, h, hb]

theorem GoMap.lookup_set {ν : Type} (m : List (String × ν)) (k k' : String) (v : ν) :
    (GoMap.set m k v).lookup k' = if k' = k then some v else m.lookup k' := by
  induction m with
  | nil =>
    by_cases h : k' = k <;> simp [GoMap.set, GoMap.lookup_cons, h]
  | cons e m ih =>
    obtain ⟨a, b⟩ := e
    by_cases hak : a = k
    · subst hak
      by_cases h : k' = a <;> simp [GoMap.set, GoMap.lookup_cons, h]
    · by_cases h : k' = k
      · subst h
        have : ¬ k' = a := fun e => hak e.symm
        simp [GoMap.set, GoMap.lookup_cons, hak, this, ih]
      · by_cases h2 : k' = a <;> simp [GoMap.set, GoMap.lookup_cons, hak, h, h2, ih]

theorem GoMap.mem_keys_set {ν : Type} (m : List (String × ν)) (k x : String) (v : ν) :
    x ∈ (GoMap.set m k v).map Prod.fst ↔ x = k ∨ x ∈ m.map Prod.fst := by
  induction m with
  | nil => simp [GoMap.set]
  | cons e m ih =>
    obtain ⟨a, b⟩ := e
    by_cases hak : a = k
    · subst hak
      simp [GoMap.set]
    · simp only [GoMap.set, hak, if_false, List.map_cons, List.mem_cons, ih]
      tauto

theorem GoMap.nodup_keys_set {ν : Type} (m : List (String × ν)) (k : String) (v : ν)
    (h : (m.map Prod.fst).Nodup) : ((GoMap.set m k v).map Prod.fst).Nodup := by
  induction m with
  | nil => simp [GoMap.set]
  | cons e m ih =>
    obtain ⟨a, b⟩ := e
    simp only [List.map_cons, List.nodup_cons] at h
    by_cases hak : a = k
    · subst hak
      simpa [GoMap.set] using h
    · simp only [GoMap.set, hak, if_false, List.map_cons, List.nodup_cons]
      refine ⟨?_, ih h.2⟩
      rw [GoMap.mem_keys_set]
      rintro (e | e)
      · exact hak e
      · exact h.1 e

theorem GoMap.mem_keys_iff_lookup {ν : Type} (m : List (String × ν)) (k : String) :
    k ∈ m.map Prod.fst ↔ (m.lookup k).isSome = true := by
  induction m with
  | nil => simp [List.lookup]
  | cons e m ih =>
    obtain ⟨a, b⟩ := e
    rw [GoMap.lookup_cons]
    by_cases h : k = a
    · simp [h]
    · simp only [List.map_cons, List.mem_cons, h, false_or, if_false]
      exact ih

theorem DiagnosticCache.inner_Set (c : DiagnosticCache) (uri source : String)
    (diagnostics : List Diagnostic) (u : String) :
    GoMap.inner (c.Set uri source diagnostics).cache u =
      if u = uri then GoMap.set (GoMap.inner c.cache uri) source diagnostics
      else GoMap.inner c.cache u := by
  unfold DiagnosticCache.Set GoMap.inner
  simp only [GoMap.lookup_set]
  by_cases hu : u = uri
  · subst hu
    cases hl : c.cache.lookup u <;> simp [hl, GoMap.lookup_set]
  · cases hl : c.cache.lookup uri <;> simp [hu, hl, GoMap.lookup_set]

theorem lastWritten_append (log : List Write) (w : Write) (uri source : String) :
    lastWritten (log ++ [w]) uri source =
      if w.uri = uri ∧ w.source = source then some w.diagnostics
      else lastWritten log uri source := by
  unfold lastWritten
  rw [List.reverse_append]
  by_cases h : w.uri = uri ∧ w.source = source
  · simp [List.find?_cons, h]
  · simp [List.find?_cons, h]

theorem lastWritten_isSome (log : List Write) (uri source : String) :
    (lastWritten log uri source).isSome = true ↔ source ∈ sourcesWritten log uri := by
  unfold lastWritten sourcesWritten
  simp only [Option.isSome_map', List.find?_isSome, List.mem_reverse, List.mem_map,
    List.mem_filter]
  constructor
  · rintro ⟨w, hw, hp⟩
    simp only [decide_eq_true_eq] at hp
    exact ⟨w, ⟨hw, by simpa using hp.1⟩, hp.2⟩
  · rintro ⟨w, ⟨hw, hu⟩, hs⟩
    exact ⟨w, hw, by simpa using ⟨by simpa using hu, hs⟩⟩

theorem DiagnosticCache.SetAll_inner (log : List Write) (u : String) :
    ((GoMap.inner (NewDiagnosticCache.SetAll log).cache u).map Prod.fst).Nodup ∧
      ∀ s, (GoMap.inner (NewDiagnosticCache.SetAll log).cache u).lookup s
        = lastWritten log u s := by
  induction log using List.reverseRecOn generalizing u with
  | nil =>
    simp [DiagnosticCache.SetAll, NewDiagnosticCache, GoMap.inner, lastWritten, List.lookup]
  | append_singleton log w ih =>
    have hstep : NewDiagnosticCache.SetAll (log ++ [w]) =
        (NewDiagnosticCache.SetAll log).Set w.uri w.source w.diagnostics := by
      simp [DiagnosticCache.SetAll, List.foldl_append]
    rw [hstep, DiagnosticCache.inner_Set]
    by_cases hu : u = w.uri
    · subst hu
      simp only [if_true]
      refine ⟨GoMap.nodup_keys_set _ _ _ (ih w.uri).1, ?_⟩
      intro s
      rw [GoMap.lookup_set, lastWritten_append, (ih w.uri).2 s]
      by_cases hs : s = w.source
      · simp [hs]
      · have : ¬ w.source = s := fun e => hs e.symm
        simp [hs, this]
    · simp only [hu, if_false]
      refine ⟨(ih u).1, ?_⟩
      intro s
      rw [lastWritten_append, (ih u).2 s]
      have : ¬ w.uri = u := fun e => hu e.symm
      simp [this]

theorem GoMap.coe_flatten_values (m : List (String × List Diagnostic))
    (h : (m.map Prod.fst).Nodup) :
    ((((m.map Prod.snd).flatten : List Diagnostic)) : Multiset Diagnostic) =
      ∑ k ∈ (m.map Prod.fst).toFinset, (((m.lookup k).getD [] : List Diagnostic) : Multiset Diagnostic) := by
  induction m with
  | nil => simp
  | cons e m ih =>
    obtain ⟨a, b⟩ := e
    simp only [List.map_cons, List.nodup_cons] at h
    have hnot : a ∉ (m.map Prod.fst).toFinset := by simpa using h.1
    simp only [List.map_cons, List.flatten_cons, List.toFinset_cons]
    rw [Finset.sum_insert hnot, ← Multiset.coe_add, ih h.2, GoMap.lookup_cons]
    simp only [if_true, Option.getD_some]
    congr 1
    apply Finset.sum_congr rfl
    intro k hk
    have hka : k ≠ a := by
      rintro rfl
      exact hnot hk
    rw [GoMap.lookup_cons, if_neg hka]

theorem coe_flatMap_nodup (l : List String) (f : String → List Diagnostic) (h : l.Nodup) :
    ((l.flatMap f : List Diagnostic) : Multiset Diagnostic) =
      ∑ k ∈ l.toFinset, ((f k : List Diagnostic) : Multiset Diagnostic) := by
  induction l with
  | nil => simp
  | cons a l ih =>
    simp only [List.nodup_cons] at h
    have hnot : a ∉ l.toFinset := by simpa using h.1
    rw [List.toFinset_cons, Finset.sum_insert hnot, ← ih h.2, List.flatMap_cons,
      Multiset.coe_add]

theorem DiagnosticCache.coe_Get_SetAll (log : List Write) (u : String)
    (results : List Diagnostic)
    (h : (NewDiagnosticCache.SetAll log).GetOutcome u results) :
    (results : Multiset Diagnostic) =
      ∑ k ∈ (sourcesWritten log u).toFinset,
        (((lastWritten log u k).getD [] : List Diagnostic) : Multiset Diagnostic) := by
  obtain ⟨visit, hperm, rfl⟩ := h
  obtain ⟨hnd, hlook⟩ := DiagnosticCache.SetAll_inner log u
  have h1 : (((visit.map Prod.snd).flatten : List Diagnostic) : Multiset Diagnostic) =
      (((GoMap.inner (NewDiagnosticCache.SetAll log).cache u).map Prod.snd).flatten :
        List Diagnostic) :=
    Multiset.coe_eq_coe.mpr (hperm.map Prod.snd).flatten
  rw [h1, GoMap.coe_flatten_values _ hnd]
  have hkeys : ((GoMap.inner (NewDiagnosticCache.SetAll log).cache u).map Prod.fst).toFinset
      = (sourcesWritten log u).toFinset := by
    ext k
    rw [List.mem_toFinset, List.mem_toFinset, GoMap.mem_keys_iff_lookup, hlook,
      lastWritten_isSome]
  rw [hkeys]
  apply Finset.sum_congr rfl
  intro k _
  rw [hlook]

theorem sourcesWritten_append (log : List Write) (w : Write) (u : String) :
    sourcesWritten (log ++ [w]) u =
      sourcesWritten log u ++ (if w.uri = u then [w.source] else []) := by
  unfold sourcesWritten
  by_cases h : w.uri = u <;> simp [List.filter_append, h]

theorem DiagnosticCache.Get_outcome (c : DiagnosticCache) (u : String) :
    c.GetOutcome u (c.Get u) :=
  ⟨GoMap.inner c.cache u, List.Perm.refl _, rfl⟩

theorem DiagnosticCache.perm_expectedAfterSet (log : List Write) (uri source : String)
    (diagnostics results : List Diagnostic)
    (h : ((NewDiagnosticCache.SetAll log).Set uri source diagnostics).GetOutcome uri results) :
    results.Perm (expectedAfterSet log uri source diagnostics) := by
  have hstep : NewDiagnosticCache.SetAll
      (log ++ [{ uri := uri, source := source, diagnostics := diagnostics }]) =
        (NewDiagnosticCache.SetAll log).Set uri source diagnostics := by
    simp [DiagnosticCache.SetAll, List.foldl_append]
  rw [← hstep] at h
  apply Multiset.coe_eq_coe.mp
  rw [DiagnosticCache.coe_Get_SetAll _ _ _ h]
  unfold expectedAfterSet
  rw [← Multiset.coe_add, coe_flatMap_nodup _ _ ((List.nodup_dedup _).filter _)]
  have hidx : (sourcesWritten
      (log ++ [{ uri := uri, source := source, diagnostics := diagnostics }]) uri).toFinset
      = insert source (((sourcesWritten log uri).dedup.filter
          (fun s' => decide (s' ≠ source))).toFinset) := by
    ext k
    rw [sourcesWritten_append]
    by_cases hk : k = source <;> simp [hk]
  have hnot : source ∉ ((sourcesWritten log uri).dedup.filter
      (fun s' => decide (s' ≠ source))).toFinset := by simp
  rw [hidx, Finset.sum_insert hnot, lastWritten_append]
  simp only [and_self, if_true, Option.getD_some]
  congr 1
  apply Finset.sum_congr rfl
  intro k hk
  have hks : ¬ source = k := by
    intro e
    subst e
    exact hnot hk
  rw [lastWritten_append]
  simp [hks]

/-- C3: after any sequence of `Set` calls on a new cache that ends with
`Set(u, s, L)`, whatever order `Get(u)` visits the sources in, its result is a
permutation of (equals as a multiset) `L` followed by, for every other source
written for `u`, the list most recently written under it: nothing written for
another URI and no earlier write to `(u, s)` contributes.  `Get` does return
such a result.  In particular after `Set(u, s, [])` every diagnostic returned
comes from the current list of another source. -/
theorem DiagnosticCache.Get_after_Set (log : List Write) (uri source : String)
    (diagnostics results : List Diagnostic)
    (h : ((NewDiagnosticCache.SetAll log).Set uri source diagnostics).GetOutcome uri results) :
    results.Perm (expectedAfterSet log uri source diagnostics) ∧
    ((NewDiagnosticCache.SetAll log).Set uri source diagnostics).GetOutcome uri
      (((NewDiagnosticCache.SetAll log).Set uri source diagnostics).Get uri) ∧
    (diagnostics = [] → ∀ d ∈ results, ∃ s', s' ≠ source ∧
      ∃ current, lastWritten log uri s' = some current ∧ d ∈ current) := by
  have hperm := DiagnosticCache.perm_expectedAfterSet log uri source diagnostics results h
  refine ⟨hperm, DiagnosticCache.Get_outcome _ _, ?_⟩
  intro hnil d hd
  subst hnil
  have hd' := hperm.subset hd
  simp only [expectedAfterSet, List.nil_append, List.mem_flatMap, List.mem_filter,
    decide_eq_true_eq] at hd'
  obtain ⟨s', ⟨-, hne⟩, hmem⟩ := hd'
  refine ⟨s', hne, ?_⟩
  cases hl : lastWritten log uri s' with
  | none => simp [hl] at hmem
  | some current => exact ⟨current, rfl, by simpa [hl] using hmem⟩

theorem publishAll_eq_SetAll (procs : List ProcessServer) (diags : DiagnosticCache)
    (events : List Published) :
    publishAll procs diags events = diags.SetAll (writesOf procs events) := by
  induction events generalizing diags with
  | nil => rfl
  | cons ev rest ih =>
    cases hb : procs[ev.backend]? with
    | none => simp [publishAll, writesOf, hb, ih]
    | some s =>
      simp only [publishAll, hb, ih, writesOf, List.filterMap_cons, Option.map_some']
      rfl

theorem writesOf_append (procs : List ProcessServer) (events : List Published)
    (ev : Published) (s : ProcessServer) (hs : procs[ev.backend]? = some s) :
    writesOf procs (events ++ [ev]) = writesOf procs events ++
      [{ uri := ev.params.URI, source := s.Name,
         diagnostics := setSources s.Name ev.params.Diagnostics }] := by
  simp [writesOf, List.filterMap_append, hs]

theorem lastPublishedUnder_eq (procs : List ProcessServer) (events : List Published)
    (uri name : String) :
    lastPublishedUnder procs events uri name = lastWritten (writesOf procs events) uri name := by
  induction events using List.reverseRecOn with
  | nil => simp [lastPublishedUnder, lastWritten, writesOf]
  | append_singleton events ev ih =>
    have hrec : lastPublishedUnder procs (events ++ [ev]) uri name =
        (publishedUnder procs uri name ev).orElse
          (fun _ => lastPublishedUnder procs events uri name) := by
      unfold lastPublishedUnder
      rw [List.reverse_append, List.reverse_singleton, List.singleton_append,
        List.findSome?_cons]
      cases publishedUnder procs uri name ev <;> rfl
    rw [hrec]
    cases hb : procs[ev.backend]? with
    | none =>
      have : writesOf procs (events ++ [ev]) = writesOf procs events := by
        simp [writesOf, List.filterMap_append, hb]
      simp [this, ih, publishedUnder, hb]
    | some s =>
      rw [writesOf_append procs events ev s hb, lastWritten_append, ← ih]
      by_cases hc : ev.params.URI = uri ∧ s.name = name
      · simp [hc, ProcessServer.Name, publishedUnder, hb]
      · simp [hc, ProcessServer.Name, publishedUnder, hb]

theorem sourcesWritten_subset_names (procs : List ProcessServer) (events : List Published)
    (uri : String) :
    ∀ k ∈ sourcesWritten (writesOf procs events) uri, k ∈ procs.map (fun s => s.name) := by
  intro k hk
  simp only [sourcesWritten, writesOf, List.mem_map, List.mem_filter, List.mem_filterMap,
    Option.map_eq_some'] at hk
  obtain ⟨w, ⟨⟨ev, _, s, hs, rfl⟩, _⟩, rfl⟩ := hk
  exact List.mem_map.mpr ⟨s, List.getElem?_mem hs, rfl⟩

theorem perm_expectedPublished (procs : List ProcessServer) (events : List Published)
    (last : Published) (s : ProcessServer) (hs : procs[last.backend]? = some s)
    (out : PublishDiagnosticsParams)
    (hout : s.PublishOutcome (publishAll procs NewDiagnosticCache events) last.params out) :
    out.Diagnostics.Perm (expectedPublished procs (events ++ [last]) last.params.URI) := by
  obtain ⟨-, hget⟩ := hout
  have hstate : (publishAll procs NewDiagnosticCache events).Set last.params.URI s.Name
      (setSources s.Name last.params.Diagnostics) =
        NewDiagnosticCache.SetAll (writesOf procs (events ++ [last])) := by
    rw [writesOf_append procs events last s hs, publishAll_eq_SetAll]
    simp [DiagnosticCache.SetAll, List.foldl_append]
  rw [hstate] at hget
  apply Multiset.coe_eq_coe.mp
  rw [DiagnosticCache.coe_Get_SetAll _ _ _ hget]
  unfold expectedPublished
  rw [coe_flatMap_nodup _ _ (List.nodup_dedup _)]
  have hsub : (sourcesWritten (writesOf procs (events ++ [last])) last.params.URI).toFinset ⊆
      ((procs.map (fun s => s.name)).dedup).toFinset := by
    intro k hk
    rw [List.mem_toFinset] at hk ⊢
    exact List.mem_dedup.mpr (sourcesWritten_subset_names procs _ _ k hk)
  rw [Finset.sum_subset hsub]
  · apply Finset.sum_congr rfl
    intro k _
    rw [lastPublishedUnder_eq]
  · intro k _ hk
    rw [List.mem_toFinset, ← lastWritten_isSome] at hk
    have : lastWritten (writesOf procs (events ++ [last])) last.params.URI k = none := by
      simpa using hk
    rw [this]
    rfl

theorem flatMap_eq_range_flatMap {α β : Type} (l : List α) (F : α → List β)
    (G : Nat → List β) (h : ∀ i a, l[i]? = some a → F a = G i) :
    l.flatMap F = (List.range l.length).flatMap G := by
  induction l using List.reverseRecOn with
  | nil => simp
  | append_singleton init a ih =>
    have hinit : ∀ i b, init[i]? = some b → F b = G i := by
      intro i b hb
      apply h i b
      have hi : i < init.length := by
        rcases List.getElem?_eq_some_iff.mp hb with ⟨hi, -⟩
        exact hi
      rw [List.getElem?_append_left hi]
      exact hb
    have hlast : F a = G init.length := by
      apply h init.length a
      simp
    rw [List.flatMap_append, List.length_append, List.length_singleton, List.range_succ,
      List.flatMap_append, ih hinit]
    simp [hlast]

theorem lastPublishedUnder_eq_lastPublishedBy (procs : List ProcessServer)
    (events : List Published) (uri : String)
    (hnd : (procs.map (fun s => s.name)).Nodup) (i : Nat) (s : ProcessServer)
    (hs : procs[i]? = some s) :
    lastPublishedUnder procs events uri s.name = lastPublishedBy procs events uri i := by
  unfold lastPublishedUnder lastPublishedBy
  congr 1
  funext ev
  unfold publishedUnder
  by_cases hb : ev.backend = i
  · rw [hb, hs]
    by_cases hu : ev.params.URI = uri <;> simp [hu]
  · have hg : ¬ (ev.backend = i ∧ ev.params.URI = uri) := fun h => hb h.1
    rw [if_neg hg]
    cases hp : procs[ev.backend]? with
    | none => rfl
    | some s' =>
      have hne : ¬ s'.name = s.name := by
        intro hname
        apply hb
        have h1 : (procs.map (fun s => s.name))[ev.backend]? = some s.name := by
          simp [List.getElem?_map, hp, hname]
        have h2 : (procs.map (fun s => s.name))[i]? = some s.name := by
          simp [List.getElem?_map, hs]
        obtain ⟨hj, ej⟩ := List.getElem?_eq_some_iff.mp h1
        obtain ⟨hi, ei⟩ := List.getElem?_eq_some_iff.mp h2
        exact (hnd.getElem_inj_iff).mp (ej.trans ei.symm)
      simp [hne]

theorem expectedPublished_eq_unionOverBackends (procs : List ProcessServer)
    (events : List Published) (uri : String)
    (hnd : (procs.map (fun s => s.name)).Nodup) :
    expectedPublished procs events uri = unionOverBackends procs events uri := by
  unfold expectedPublished unionOverBackends
  rw [hnd.dedup, List.flatMap_map]
  apply flatMap_eq_range_flatMap
  intro i s hs
  show (lastPublishedUnder procs events uri s.name).getD [] = _
  rw [lastPublishedUnder_eq_lastPublishedBy procs events uri hnd i s hs]

theorem setSources_getElem? (name : String) (ds : List Diagnostic) (i : Nat) (d : Diagnostic)
    (h : ds[i]? = some d) :
    (setSources name ds)[i]? =
      some (if d.Source = "" then { d with Source := name } else d) := by
  simp [setSources, List.getElem?_map, h]

/-- C4 (amended): after any sequence of publishDiagnostics notifications handled over one
shared cache, the notification emitted for the last one carries the same URI
and, as a multiset, the union over the backend names of the list most
recently published for that URI under the name (backends with the same name
share one entry); when the backends have pairwise distinct names this is the
union over all backends of each backend's most recently published list.  In
the published lists a diagnostic with an empty source carries the publishing
backend's name and any other diagnostic is unchanged.  The handler itself
yields such a notification. -/
theorem publishDiagnostics_union (procs : List ProcessServer) (events : List Published)
    (last : Published) (s : ProcessServer) (hs : procs[last.backend]? = some s)
    (out : PublishDiagnosticsParams)
    (hout : s.PublishOutcome (publishAll procs NewDiagnosticCache events) last.params out) :
    out.URI = last.params.URI ∧
    out.Diagnostics.Perm (expectedPublished procs (events ++ [last]) last.params.URI) ∧
    ((procs.map (fun s => s.name)).Nodup →
      out.Diagnostics.Perm (unionOverBackends procs (events ++ [last]) last.params.URI)) ∧
    s.PublishOutcome (publishAll procs NewDiagnosticCache events) last.params
      (s.handleTextDocumentPublishDiagnostics
        (publishAll procs NewDiagnosticCache events) last.params).2 ∧
    (∀ (name : String) (ds : List Diagnostic) (i : Nat) (d : Diagnostic), ds[i]? = some d →
      (setSources name ds).length = ds.length ∧
      (d.Source = "" → (setSources name ds)[i]? = some { d with Source := name }) ∧
      (d.Source ≠ "" → (setSources name ds)[i]? = some d)) := by
  have hperm := perm_expectedPublished procs events last s hs out hout
  refine ⟨hout.1, hperm, ?_, ⟨rfl, DiagnosticCache.Get_outcome _ _⟩, ?_⟩
  · intro hnd
    rw [← expectedPublished_eq_unionOverBackends procs _ _ hnd]
    exact hperm
  · intro name ds i d hd
    refine ⟨by simp [setSources], ?_, ?_⟩
    · intro he
      rw [setSources_getElem? name ds i d hd, if_pos he]
    · intro hne
      rw [setSources_getElem? name ds i d hd, if_neg hne]

/-- Witness for C4 (amended): backend `A` publishes `m1` without a source, then backend `B`
publishes `m2` with source `b`, both for `u`; the last notification carries
`m1` attributed to `A` and `m2`. -/
theorem publishDiagnostics_union_witness :
    [silentBackend "A", silentBackend "B"][1]? = some (silentBackend "B") ∧
    (silentBackend "B").PublishOutcome
      (publishAll [silentBackend "A", silentBackend "B"] NewDiagnosticCache
        [{ backend := 0, params := { URI := "u", Diagnostics := [diagM1] } }])
      { URI := "u", Diagnostics := [diagM2] }
      { URI := "u", Diagnostics := [diagM2, { diagM1 with Source := "A" }] } ∧
    [diagM2, { diagM1 with Source := "A" }].Perm
      (expectedPublished [silentBackend "A", silentBackend "B"]
        ([{ backend := 0, params := { URI := "u", Diagnostics := [diagM1] } }] ++
          [{ backend := 1, params := { URI := "u", Diagnostics := [diagM2] } }]) "u") ∧
    expectedPublished [silentBackend "A", silentBackend "B"]
        ([{ backend := 0, params := { URI := "u", Diagnostics := [diagM1] } }] ++
          [{ backend := 1, params := { URI := "u", Diagnostics := [diagM2] } }]) "u"
      = [{ diagM1 with Source := "A" }, diagM2] :=
  have hout : (silentBackend "B").PublishOutcome
      (publishAll [silentBackend "A", silentBackend "B"] NewDiagnosticCache
        [{ backend := 0, params := { URI := "u", Diagnostics := [diagM1] } }])
      { URI := "u", Diagnostics := [diagM2] }
      { URI := "u", Diagnostics := [diagM2, { diagM1 with Source := "A" }] } :=
    ⟨rfl, [("B", [diagM2]), ("A", [{ diagM1 with Source := "A" }])], by decide, rfl⟩
  ⟨rfl, hout,
   (publishDiagnostics_union [silentBackend "A", silentBackend "B"]
      [{ backend := 0, params := { URI := "u", Diagnostics := [diagM1] } }]
      { backend := 1, params := { URI := "u", Diagnostics := [diagM2] } }
      (silentBackend "B") rfl _ hout).2.1,
   by decide⟩

/-- Counterexample to C4 as stated: two backends are both called `A`; the first publishes
`m1` for `u`, then the second publishes `m3` for `u`.  The last notification
carries only `m3`, while the union over all backends of their most recent
lists holds `m1` and `m3`. -/
theorem publishDiagnostics_same_name_overwrites :
    ((silentBackend "A").handleTextDocumentPublishDiagnostics
      (publishAll [silentBackend "A", silentBackend "A"] NewDiagnosticCache
        [{ backend := 0, params := { URI := "u", Diagnostics := [diagM1] } }])
      { URI := "u", Diagnostics := [diagM3] }).2.Diagnostics
      = [{ diagM3 with Source := "A" }] ∧
    unionOverBackends [silentBackend "A", silentBackend "A"]
        ([{ backend := 0, params := { URI := "u", Diagnostics := [diagM1] } }] ++
          [{ backend := 1, params := { URI := "u", Diagnostics := [diagM3] } }]) "u"
      = [{ diagM1 with Source := "A" }, { diagM3 with Source := "A" }] ∧
    ¬ ([{ diagM3 with Source := "A" }].Perm
        [{ diagM1 with Source := "A" }, { diagM3 with Source := "A" }]) := by
  refine ⟨by decide, by decide, ?_⟩
  intro h
  simpa using h.length_eq

/-- Witness for C3: after `m1` under `(u, A)`, `m3` under `(v, A)` and `m2` under
`(u, B)`, the call `Set(u, A, [])` leaves `Get(u)` with `m2` only. -/
theorem Get_after_Set_witness :
    ((NewDiagnosticCache.SetAll exampleLog).Set "u" "A" []).GetOutcome "u" [diagM2] ∧
    [diagM2].Perm (expectedAfterSet exampleLog "u" "A" []) ∧
    expectedAfterSet exampleLog "u" "A" [] = [diagM2] ∧
    ((NewDiagnosticCache.SetAll exampleLog).Set "u" "A" []).Get "u" = [diagM2] :=
  have hout : ((NewDiagnosticCache.SetAll exampleLog).Set "u" "A" []).GetOutcome "u"
      [diagM2] :=
    ⟨[("B", [diagM2]), ("A", [])], by decide, rfl⟩
  ⟨hout, (DiagnosticCache.Get_after_Set exampleLog "u" "A" [] [diagM2] hout).1,
   by decide, by decide⟩

/-- C5: on two mappings the code does not return the union: `merge` returns its second
argument as soon as the first is a valid value, so for `old = {a: 1}` and
`new = {b: 2}` the result is `{b: 2}` and the key `a` is lost; and the
initialize fan-out over a backend advertising hover and one advertising
rename answers with the rename capability only. -/
theorem merge_maps_returns_new :
    merge (.map [("a", .int 1)]) (.map [("b", .int 2)]) = some (.map [("b", .int 2)]) ∧
    (ProxyServer.handleInitialize { procs := [initA, initB], providers := fun _ => none }
        decodeInitializeResult initializeReq [initA, initB]).2
      = some (.ok { ServerInfo := .obj [("name", .str "A")],
                    Capabilities := [("RenameProvider", .bool true)] }) := by
  constructor
  · rw [merge_eq]; rfl
  · rw [handleInitialize_ok _ decodeInitializeResult initializeReq [initA, initB]
      { ServerInfo := .obj [("name", .str "A")],
        Capabilities := [("HoverProvider", .bool true)] }
      [{ ServerInfo := .obj [("name", .str "B")],
         Capabilities := [("RenameProvider", .bool true)] }] rfl]
    rfl

/-- C6: on two sequences the code does not append: for `old = [1]` and `new = [2]` the
result of `merge` is `[2]`, of which `old` is not a prefix; for
`old = [1, 2]` and `new = [2]` it is `[2]`; and folding the capabilities of a
backend whose completion trigger characters are `["."]` with those of one
whose trigger characters are `[":"]` leaves `[":"]` alone. -/
theorem merge_slices_returns_new :
    merge (.slice [.int 1]) (.slice [.int 2]) = some (.slice [.int 2]) ∧
    merge (.slice [.int 1, .int 2]) (.slice [.int 2]) = some (.slice [.int 2]) ∧
    initializeLoop
        { ServerInfo := .null,
          Capabilities := [("CompletionProvider", .ptr (some (.struct "CompletionOptions"
            [("TriggerCharacters", .slice [.str "."])])))] }
        [{ ServerInfo := .null,
           Capabilities := [("CompletionProvider", .ptr (some (.struct "CompletionOptions"
             [("TriggerCharacters", .slice [.str ":"])])))] }]
      = some { ServerInfo := .null,
               Capabilities := [("CompletionProvider", .ptr (some (.struct "CompletionOptions"
                 [("TriggerCharacters", .slice [.str ":"])])))] } := by
  refine ⟨?_, ?_, ?_⟩
  · rw [merge_eq]; rfl
  · rw [merge_eq]; rfl
  · rw [initializeLoop_eq]; rfl

/-- C7: the initialize fan-out sends every backend the client's params as they are: with
`initializationOptions = {"A": {"x": 1}, "B": {"y": 2}}` both `A` and `B` are
sent the whole object.  The rewriter `ProcessServer.handleInitialize`, which
would give `A` the options `{"x": 1}`, is not on the path of `Call`. -/
theorem initialize_fanout_sends_params_unchanged :
    (ProxyServer.handle { procs := [initA, initB], providers := fun _ => none }
        decodeInitializeResult decodeCompletionList initializeReq
        (ProxyServer.getProcsByProviders { procs := [initA, initB], providers := fun _ => none }
          initializeReq.Method)).1
      = [{ method := "initialize",
           params := .obj [("processId", .num 1),
             ("initializationOptions",
               .obj [("A", .obj [("x", .num 1)]), ("B", .obj [("y", .num 2)])])] },
         { method := "initialize",
           params := .obj [("processId", .num 1),
             ("initializationOptions",
               .obj [("A", .obj [("x", .num 1)]), ("B", .obj [("y", .num 2)])])] }] ∧
    (initA.Call decodeInitializeResult initializeReq.Method initializeReq.Params).1
      = { method := "initialize", params := initializeReq.Params } ∧
    initA.handleInitialize decodeTypedFields initializeReq
      = .ok (.typed { InitializationOptions := .obj [("x", .num 1)],
                      others := [("processId", .num 1)] }) := by
  refine ⟨rfl, rfl, rfl⟩

theorem handleInitialize_of_decoded (s : ProcessServer)
    (typed : List (String × Json) → Except String (List (String × Json)))
    (req : Request) (newParams : InitializeParams)
    (h : unmarshalInitializeParams typed req.Params = .ok newParams) :
    s.handleInitialize typed req =
      if !newParams.InitializationOptions.isNull then
        match unmarshalOptions newParams.InitializationOptions with
        | .error err => .error err
        | .ok options =>
          match Json.member options s.name with
          | some opt => .ok (.typed { newParams with InitializationOptions := opt })
          | none => .ok (.typed newParams)
      else .ok (.raw req.Params) := by
  unfold ProcessServer.handleInitialize
  rw [h]

theorem handleInitialize_of_error (s : ProcessServer)
    (typed : List (String × Json) → Except String (List (String × Json)))
    (req : Request) (err : String)
    (h : unmarshalInitializeParams typed req.Params = .error err) :
    s.handleInitialize typed req = .error err := by
  unfold ProcessServer.handleInitialize
  rw [h]

theorem unmarshalInitializeParams_obj
    (typed : List (String × Json) → Except String (List (String × Json)))
    (kvs others : List (String × Json))
    (h : typed (kvs.filter (fun e => e.1 != "initializationOptions")) = .ok others) :
    unmarshalInitializeParams typed (.obj kvs) =
      .ok { InitializationOptions := (Json.member kvs "initializationOptions").getD .null,
            others := others } := by
  simp only [unmarshalInitializeParams, h]

theorem handleInitialize_nil_or_not_object (s : ProcessServer)
    (typed : List (String × Json) → Except String (List (String × Json)))
    (req : Request) (newParams : InitializeParams)
    (h : unmarshalInitializeParams typed req.Params = .ok newParams) :
    (newParams.InitializationOptions = .null →
      s.handleInitialize typed req = .ok (.raw req.Params)) ∧
    (((∃ t, newParams.InitializationOptions = .str t) ∨
      (∃ n, newParams.InitializationOptions = .num n) ∨
      (∃ b, newParams.InitializationOptions = .bool b) ∨
      (∃ xs, newParams.InitializationOptions = .arr xs)) →
        ∃ err, s.handleInitialize typed req = .error err) := by
  rw [handleInitialize_of_decoded s typed req newParams h]
  constructor
  · intro hnull
    rw [hnull]
    rfl
  · intro hkind
    rcases hkind with ⟨t, ht⟩ | ⟨n, ht⟩ | ⟨b, ht⟩ | ⟨xs, ht⟩ <;>
      (rw [ht]; exact ⟨_, rfl⟩)

/-- C8 (amended): for every backend name and every decoding of the typed fields.  When
the initialize params do not unmarshal into `protocol.InitializeParams` (a
typed field mismatches, or the params are neither an object nor null) the
rewriter returns the unmarshal error.  When they unmarshal: if
`initializationOptions` is absent or null the rewriter returns no error and
the request params unchanged, and if it is a string, a number, a boolean or
an array the rewriter returns an error.  This is stated on the decoded params
and on the JSON params (an object whose typed fields decode, or null). -/
theorem handleInitialize_absent_or_not_object (s : ProcessServer)
    (typed : List (String × Json) → Except String (List (String × Json)))
    (req : Request) :
    (∀ err, unmarshalInitializeParams typed req.Params = .error err →
      s.handleInitialize typed req = .error err) ∧
    (∀ newParams, unmarshalInitializeParams typed req.Params = .ok newParams →
      (newParams.InitializationOptions = .null →
        s.handleInitialize typed req = .ok (.raw req.Params)) ∧
      (((∃ t, newParams.InitializationOptions = .str t) ∨
        (∃ n, newParams.InitializationOptions = .num n) ∨
        (∃ b, newParams.InitializationOptions = .bool b) ∨
        (∃ xs, newParams.InitializationOptions = .arr xs)) →
          ∃ err, s.handleInitialize typed req = .error err)) ∧
    (∀ kvs others, req.Params = .obj kvs →
      typed (kvs.filter (fun e => e.1 != "initializationOptions")) = .ok others →
      ((Json.member kvs "initializationOptions" = none ∨
          Json.member kvs "initializationOptions" = some .null) →
        s.handleInitialize typed req = .ok (.raw req.Params)) ∧
      (∀ v, Json.member kvs "initializationOptions" = some v →
        ((∃ t, v = .str t) ∨ (∃ n, v = .num n) ∨ (∃ b, v = .bool b) ∨ (∃ xs, v = .arr xs)) →
          ∃ err, s.handleInitialize typed req = .error err)) ∧
    (∀ kvs err, req.Params = .obj kvs →
      typed (kvs.filter (fun e => e.1 != "initializationOptions")) = .error err →
        s.handleInitialize typed req = .error err) ∧
    (req.Params = .null → s.handleInitialize typed req = .ok (.raw req.Params)) := by
  refine ⟨fun err h => handleInitialize_of_error s typed req err h,
    fun newParams h => handleInitialize_nil_or_not_object s typed req newParams h, ?_, ?_, ?_⟩
  · intro kvs others hreq htyped
    have hdec : unmarshalInitializeParams typed req.Params =
        .ok { InitializationOptions := (Json.member kvs "initializationOptions").getD .null,
              others := others } := by
      rw [hreq]
      exact unmarshalInitializeParams_obj typed kvs others htyped
    have hboth := handleInitialize_nil_or_not_object s typed req _ hdec
    constructor
    · intro h
      apply hboth.1
      rcases h with h | h <;> simp [h]
    · intro v hv hkind
      apply hboth.2
      simpa [hv] using hkind
  · intro kvs err hreq htyped
    apply handleInitialize_of_error
    rw [hreq]
    simp only [unmarshalInitializeParams, htyped]
  · intro hreq
    have hdec : unmarshalInitializeParams typed req.Params =
        .ok { InitializationOptions := .null, others := [] } := by
      rw [hreq]
      rfl
    exact (handleInitialize_nil_or_not_object s typed req _ hdec).1 rfl

/-- Witness for C8 (amended): params without `initializationOptions` are returned as they
are; with `initializationOptions = [1]` the rewriter fails; and params whose
`processId` does not fit an `int32` make it return the unmarshal error. -/
theorem handleInitialize_absent_or_not_object_witness :
    (silentBackend "A").handleInitialize decodeTypedFields
        { Method := "initialize", Params := .obj [("processId", .num 1)], Notif := false }
      = .ok (.raw (.obj [("processId", .num 1)])) ∧
    (∃ err, (silentBackend "A").handleInitialize decodeTypedFields
        { Method := "initialize",
          Params := .obj [("initializationOptions", .arr [.num 1])], Notif := false }
      = .error err) ∧
    (silentBackend "A").handleInitialize decodeTypedFields
        { Method := "initialize", Params := .obj [("processId", .num 2147483648)],
          Notif := false }
      = .error "cannot unmarshal number into Go struct field of type int32" :=
  ⟨((handleInitialize_absent_or_not_object (silentBackend "A") decodeTypedFields
      { Method := "initialize", Params := .obj [("processId", .num 1)], Notif := false }
      ).2.2.1 [("processId", .num 1)] [("processId", .num 1)] rfl rfl).1 (Or.inl rfl),
   ((handleInitialize_absent_or_not_object (silentBackend "A") decodeTypedFields
      { Method := "initialize",
        Params := .obj [("initializationOptions", .arr [.num 1])], Notif := false }
      ).2.2.1 [("initializationOptions", .arr [.num 1])] [] rfl rfl).2 (.arr [.num 1]) rfl
      (Or.inr (Or.inr (Or.inr ⟨[.num 1], rfl⟩))),
   (handleInitialize_absent_or_not_object (silentBackend "A") decodeTypedFields
      { Method := "initialize", Params := .obj [("processId", .num 2147483648)],
        Notif := false }).2.2.2.1 [("processId", .num 2147483648)] _ rfl rfl⟩

/-- Counterexample to C8 as stated: the params `{"initializationOptions": "x"}` have no
typed field and unmarshal, and with `initializationOptions` the string `"x"`
the rewriter returns an error, not the params. -/
theorem handleInitialize_string_options_error :
    unmarshalInitializeParams decodeTypedFields
        (.obj [("initializationOptions", .str "x")])
      = .ok { InitializationOptions := .str "x", others := [] } ∧
    (silentBackend "A").handleInitialize decodeTypedFields
        { Method := "initialize",
          Params := .obj [("initializationOptions", .str "x")], Notif := false }
      = .error "cannot unmarshal into Go value of type map[string]interface {}" := by
  exact ⟨rfl, rfl⟩

end Lspx
